import Mathlib

/-!
Verification of the brainfrick interpreter (Purpzie/brainfrick).

The live crate is the module tree rooted at src/lib.rs: error.rs, execute.rs,
mem.rs, parse.rs, step.rs.  (The file src/run.rs is not declared as a module
in lib.rs and refers to types — Step::LoopStart, RunError, loop_indexes —
that do not exist in this crate version, so it is dead text; the semantics
embedded here are those of parse.rs, mem.rs and execute.rs.)

Modelling conventions:
  * Source text is modelled as its list of lines, each line a list of bytes,
    mirroring code.lines() followed by line_content.bytes().enumerate()
    in real_parse.
  * Rust u8 cells are Nat kept below 256 by explicit % 256; i8 / isize
    payloads are Int (i8 wrapping via i8wrap, i.e. reduction into
    [-128, 128)).  Move payload overflow (checked_add + expect in parse.rs,
    reachable only past isize::MAX source bytes) is not reachable in the
    unbounded Int embedding.
  * The Rust String output is kept as its list of bytes; parse_bytes keeps
    the None-when-empty behaviour of execute.rs and drops only the
    from_utf8_lossy re-encoding, which no claim inspects.
  * Fallible indexing that Rust would panic on is made explicit: the
    indexes[index] lookup in execute.rs's step-limit branch is modelled by
    an Option lookup whose None case produces RunResult.panicked.
-/

namespace Brainfrick

/-- Source location, error.rs struct Index: zero-based line and column. -/
structure Index where
  line : Nat
  col : Nat
deriving DecidableEq, Repr

/-- step.rs enum LoopKind. -/
inductive LoopKind where
  | Begin
  | End
deriving DecidableEq, Repr

/-- step.rs enum Step.  Add carries an i8, Move an isize, Loop its kind and
the jump target filled in by parse.rs. -/
inductive Step where
  | Add (n : Int)
  | Move (n : Int)
  | Loop (kind : LoopKind) (jump : Nat)
  | Output
  | Input
  | Debug
deriving DecidableEq, Repr

/-- error.rs enum ErrorKind. -/
inductive ErrorKind where
  | UnmatchedBracket
  | MaxSteps
deriving DecidableEq, Repr

/-- error.rs struct Error.  The brainfuck field is the shared source text
(here: its lines of bytes); output is the output produced before the error,
None when empty. -/
structure Error where
  kind : ErrorKind
  index : Index
  brainfuck : List (List Nat)
  output : Option (List Nat)
deriving DecidableEq, Repr

/-- lib.rs struct Brainfuck: the compiled program. -/
structure Brainfuck where
  steps : List Step
  indexes : List Index
  code : List (List Nat)
  max_steps : Nat
deriving DecidableEq, Repr

/-- parse.rs struct IndexedStep. -/
structure IndexedStep where
  step : Step
  index : Index
deriving DecidableEq, Repr

/-- Reduction of an Int into the i8 range [-128, 128), the value produced by
Rust's wrapping i8 arithmetic. -/
def i8wrap (x : Int) : Int :=
  (x + 128) % 256 - 128

/-- The byte dispatch in real_parse's filter_map: the eight significant
characters plus the debug character; every other byte is inert. -/
def charToStep (b : Nat) : Option Step :=
  if b = 43 then some (Step.Add 1)          -- b'+'
  else if b = 45 then some (Step.Add (-1))  -- b'-'
  else if b = 62 then some (Step.Move 1)    -- b'>'
  else if b = 60 then some (Step.Move (-1)) -- b'<'
  else if b = 46 then some Step.Output      -- b'.'
  else if b = 44 then some Step.Input       -- b','
  else if b = 63 then some Step.Debug       -- b'?'
  else if b = 91 then some (Step.Loop LoopKind.Begin 0)  -- b'['
  else if b = 93 then some (Step.Loop LoopKind.End 0)    -- b']'
  else none

/-- One line of real_parse's scan: bytes enumerated from 0, the byte offset
becoming the column of the Index attached to each significant byte. -/
def tokenizeLine (lineNumber : Nat) (lineContent : List Nat) : List IndexedStep :=
  lineContent.enum.filterMap fun p =>
    (charToStep p.2).map fun s => { step := s, index := ⟨lineNumber, p.1⟩ }

/-- real_parse's scan over code.lines().enumerate(), flat-mapped. -/
def tokenize (code : List (List Nat)) : List IndexedStep :=
  code.enum.flatMap fun p => tokenizeLine p.1 p.2

/-- The closure given to Itertools::coalesce in real_parse: adjacent Adds
merge with wrapping i8 addition, adjacent Moves merge with exact (checked)
isize addition, the merged step keeping the left operand's index; any other
pair is not merged. -/
def coalesceStep (left right : IndexedStep) : Option IndexedStep :=
  match left.step, right.step with
  | Step.Add a, Step.Add b => some { step := Step.Add (i8wrap (a + b)), index := left.index }
  | Step.Move a, Step.Move b => some { step := Step.Move (a + b), index := left.index }
  | _, _ => none

/-- Itertools::coalesce, inner loop: hold the pending item; merge it with the
next item when f succeeds, otherwise emit it and continue from the next. -/
def coalesceAux (f : IndexedStep → IndexedStep → Option IndexedStep) :
    IndexedStep → List IndexedStep → List IndexedStep
  | last, [] => [last]
  | last, x :: xs =>
    match f last x with
    | some merged => coalesceAux f merged xs
    | none => last :: coalesceAux f x xs

/-- Itertools::coalesce. -/
def coalesce (f : IndexedStep → IndexedStep → Option IndexedStep) :
    List IndexedStep → List IndexedStep
  | [] => []
  | x :: xs => coalesceAux f x xs

/-- The loop-matching pass of real_parse.  The fuel argument is the number of
indices left to scan (steps.length - i at every call, an equality the caller
establishes; List.set preserves length, so it is maintained).  On '[' push
the current index; on ']' pop and write the two jump targets into the array;
on ']' with an empty stack fail at the current index; after the scan fail at
the top (most recently pushed) remaining open bracket, if any.  The error
value is the step index the Rust code reads indexes[i] at. -/
def matchLoopsAux : Nat → List Step → List Nat → Nat → Except Nat (List Step)
  | 0, steps, stack, _ =>
    match stack with
    | [] => Except.ok steps
    | top :: _ => Except.error top
  | fuel + 1, steps, stack, i =>
    match steps[i]? with
    | some (Step.Loop LoopKind.Begin _) => matchLoopsAux fuel steps (i :: stack) (i + 1)
    | some (Step.Loop LoopKind.End _) =>
      match stack with
      | [] => Except.error i
      | openIdx :: rest =>
        matchLoopsAux fuel
          ((steps.set openIdx (Step.Loop LoopKind.Begin i)).set i (Step.Loop LoopKind.End openIdx))
          rest (i + 1)
    | some _ => matchLoopsAux fuel steps stack (i + 1)
    | none =>
      -- unreachable under the caller's fuel discipline (fuel + i = length)
      match stack with
      | [] => Except.ok steps
      | top :: _ => Except.error top

/-- parse.rs real_parse: tokenize, coalesce, split steps from indexes, match
loops.  indexes.getD models the indexes[i] lookup, which is always
in-bounds. -/
def real_parse (code : List (List Nat)) (max_steps : Nat) : Except Error Brainfuck :=
  let indexedSteps := coalesce coalesceStep (tokenize code)
  let steps := indexedSteps.map fun x => x.step
  let indexes := indexedSteps.map fun x => x.index
  match matchLoopsAux steps.length steps [] 0 with
  | Except.ok finalSteps =>
    Except.ok { steps := finalSteps, indexes := indexes, code := code, max_steps := max_steps }
  | Except.error i =>
    Except.error { kind := ErrorKind.UnmatchedBracket, index := indexes.getD i ⟨0, 0⟩,
                   brainfuck := code, output := none }

/-- mem.rs struct Memory: a cell tape, the internal non-negative pointer and
the leftward offset; the logical address is pointer - offset. -/
structure Memory where
  cells : List Nat
  pointer : Nat
  offset : Nat
deriving DecidableEq, Repr

/-- Memory::new: a single zero cell at logical address 0. -/
def Memory.new : Memory :=
  { cells := [0], pointer := 0, offset := 0 }

/-- Memory::add: wrapping i8-as-u8 addition on the current cell.  The i8
amount reinterpreted as u8 is amount mod 256; the u8 wrapping add is mod
256.  (Rust indexes cells[pointer], in-bounds for every reachable Memory;
List.set / getD make the out-of-range case inert instead of a panic.) -/
def Memory.add (m : Memory) (amount : Int) : Memory :=
  { m with cells := m.cells.set m.pointer ((m.cells.getD m.pointer 0 + (amount % 256).toNat) % 256) }

/-- Memory::get_cell. -/
def Memory.get_cell (m : Memory) : Nat :=
  m.cells.getD m.pointer 0

/-- Memory::set_cell. -/
def Memory.set_cell (m : Memory) (c : Nat) : Memory :=
  { m with cells := m.cells.set m.pointer c }

/-- Memory::move_pointer: moving right adds to the pointer and resizes the
tape with zero cells up to pointer + 1 when needed; moving left subtracts
when there is room, otherwise grows the tape leftward by the shortfall in
zero cells, adds that shortfall to the offset, and sets the pointer to 0. -/
def Memory.move_pointer (m : Memory) (amount : Int) : Memory :=
  if 0 ≤ amount then
    let p := m.pointer + amount.toNat
    { m with
      pointer := p
      cells := if m.cells.length ≤ p then m.cells ++ List.replicate (p + 1 - m.cells.length) 0
               else m.cells }
  else
    let a := (-amount).toNat
    if a ≤ m.pointer then
      { m with pointer := m.pointer - a }
    else
      let off := a - m.pointer
      { cells := List.replicate off 0 ++ m.cells, pointer := 0, offset := m.offset + off }

/-- mem.rs append_debug: the bytes of the text "[logical,cell]" where
logical = pointer - offset. -/
def Memory.append_debug (m : Memory) : List Nat :=
  (toString ((m.pointer : Int) - (m.offset : Int))).data.map Char.toNat
    |> fun mid => [91] ++ mid ++ [44] ++ (toString m.get_cell).data.map Char.toNat ++ [93]

/-- step.rs LoopKind::should_jump: a loop-begin jumps when the cell is zero,
a loop-end jumps when it is non-zero. -/
def LoopKind.should_jump (k : LoopKind) (mem : Memory) : Bool :=
  match k with
  | LoopKind.Begin => mem.get_cell == 0
  | LoopKind.End => mem.get_cell != 0

/-- execute.rs parse_bytes: None for empty output, Some otherwise (the
from_utf8_lossy re-encoding is dropped; output stays as bytes). -/
def parse_bytes (output : List Nat) : Option (List Nat) :=
  if output = [] then none else some output

/-- The mutable locals of real_execute's while loop. -/
structure ExecState where
  input : List Nat
  output : List Nat
  mem : Memory
  index : Nat
  stepCount : Nat
deriving DecidableEq, Repr

/-- real_execute's initial state: input.unwrap_or("") as bytes, empty
output, fresh memory, instruction pointer and step counter at 0. -/
def initState (input : List Nat) : ExecState :=
  { input := input, output := [], mem := Memory.new, index := 0, stepCount := 0 }

/-- One iteration of real_execute's while body: dispatch on the current
step, then advance the instruction pointer and the step counter by one (a
taken jump sets the pointer to the target, which the increment then moves
past, exactly as in execute.rs).  The getD default is unreachable: the
caller only dispatches when index < steps.length. -/
def execBody (bf : Brainfuck) (s : ExecState) : ExecState :=
  let s1 :=
    match bf.steps.getD s.index (Step.Add 0) with
    | Step.Add n => { s with mem := s.mem.add n }
    | Step.Move n => { s with mem := s.mem.move_pointer n }
    | Step.Output => { s with output := s.output ++ [s.mem.get_cell] }
    | Step.Input => { s with mem := s.mem.set_cell (s.input.headD 0), input := s.input.tail }
    | Step.Loop kind jump => if kind.should_jump s.mem then { s with index := jump } else s
    | Step.Debug => { s with output := s.output ++ s.mem.append_debug }
  { s1 with index := s1.index + 1, stepCount := s.stepCount + 1 }

/-- Results of one call to real_execute: Ok with the output, Err with the
step-limit Error, or the Rust panic raised by the indexes[index] lookup in
the error branch when index is out of bounds. -/
inductive RunResult where
  | ok (output : List Nat)
  | error (e : Error)
  | panicked
deriving DecidableEq, Repr

/-- real_execute's while loop.  One unit of fuel is one loop iteration, i.e.
one executed step.  While the instruction pointer is in bounds: run the
body; if the step counter has reached max_steps, return the MaxSteps error
built from indexes[index] (panicking when that lookup is out of bounds) and
the output so far; otherwise continue.  A pointer past the end is success
with the accumulated output. -/
def execLoop (bf : Brainfuck) : Nat → ExecState → Option RunResult
  | 0, _ => none
  | fuel + 1, s =>
    if s.index < bf.steps.length then
      let t := execBody bf s
      if bf.max_steps ≤ t.stepCount then
        some (match bf.indexes[t.index]? with
              | some idx =>
                RunResult.error { kind := ErrorKind.MaxSteps, index := idx,
                                  brainfuck := bf.code, output := parse_bytes t.output }
              | none => RunResult.panicked)
      else execLoop bf fuel t
    else some (RunResult.ok ((parse_bytes s.output).getD []))

/-- execute.rs real_execute.  The loop needs at most max_steps + 1
iterations: each iteration raises stepCount by one and the limit check fires
at stepCount ≥ max_steps, so the fuel never runs out. -/
def real_execute (bf : Brainfuck) (input : Option (List Nat)) : Option RunResult :=
  execLoop bf (bf.max_steps + 1) (initState (input.getD []))

/-! Concrete programs used by the theorems below. -/

/-- The source "+[]" (the spec's infinite loop with no I/O), as line bytes. -/
def code3 : List (List Nat) := [[43, 91, 93]]

/-- The compiled form of "+[]" with step limit N: Add 1, then a matched
loop pair. -/
def bf3 (N : Nat) : Brainfuck :=
  { steps := [Step.Add 1, Step.Loop LoopKind.Begin 2, Step.Loop LoopKind.End 1],
    indexes := [⟨0, 0⟩, ⟨0, 1⟩, ⟨0, 2⟩],
    code := code3,
    max_steps := N }

/-- The steady state of running "+[]": no I/O, cell 1, instruction pointer
at the loop end, c steps executed. -/
def loopState (c : Nat) : ExecState :=
  { input := [], output := [], mem := { cells := [1], pointer := 0, offset := 0 },
    index := 2, stepCount := c }

/-- The MaxSteps error of a "+[]" run: empty output so far, located at
idx. -/
def errAt3 (idx : Index) : RunResult :=
  RunResult.error { kind := ErrorKind.MaxSteps, index := idx, brainfuck := code3, output := none }

/-- The compiled form of "+." with step limit ms. -/
def bfDot (ms : Nat) : Brainfuck :=
  { steps := [Step.Add 1, Step.Output], indexes := [⟨0, 0⟩, ⟨0, 1⟩],
    code := [[43, 46]], max_steps := ms }

/-- The compiled form of "+" with step limit ms. -/
def bfPlus (ms : Nat) : Brainfuck :=
  { steps := [Step.Add 1], indexes := [⟨0, 0⟩], code := [[43]], max_steps := ms }

/-- The compiled form of "[]": one matched bracket pair. -/
def bfPair : Brainfuck :=
  { steps := [Step.Loop LoopKind.Begin 1, Step.Loop LoopKind.End 0],
    indexes := [⟨0, 0⟩, ⟨0, 1⟩], code := [[91, 93]], max_steps := 100000 }

/-- The compiled form of "+a+" (inert byte between the plus signs). -/
def bfAA : Brainfuck :=
  { steps := [Step.Add 2], indexes := [⟨0, 0⟩], code := [[43, 97, 43]], max_steps := 100000 }

/-- The compiled form of the two-byte character 0xC3 0xA9 followed by '+'
(UTF-8 source "é+"). -/
def bfWide : Brainfuck :=
  { steps := [Step.Add 1], indexes := [⟨0, 2⟩], code := [[195, 169, 43]], max_steps := 100000 }

/-- A UTF-8 continuation byte (0b10xxxxxx) does not start a character. -/
def isUtf8Continuation (b : Nat) : Bool :=
  decide (128 ≤ b ∧ b < 192)

/-- The zero-based character position of byte offset col within a UTF-8
line: the number of character-starting bytes strictly before it. -/
def charColumnOfByte (lineContent : List Nat) (col : Nat) : Nat :=
  ((lineContent.take col).filter fun b => !isUtf8Continuation b).length

/-- Net Add payload of a token group (0 for non-Add tokens). -/
def addSum (g : List IndexedStep) : Int :=
  (g.map fun x => match x.step with | Step.Add n => n | _ => 0).sum

/-- Net Move payload of a token group (0 for non-Move tokens). -/
def moveSum (g : List IndexedStep) : Int :=
  (g.map fun x => match x.step with | Step.Move n => n | _ => 0).sum

/-- The Add payload accumulated by coalescing a run: wrapping i8 addition
folded from the left, exactly as the repeated coalesceStep merges do. -/
def addRunDelta (acc : Int) (g : List IndexedStep) : Int :=
  g.foldl (fun a y => match y.step with | Step.Add b => i8wrap (a + b) | _ => a) acc

/-- The Move payload accumulated by coalescing a run: exact addition folded
from the left. -/
def moveRunDelta (acc : Int) (g : List IndexedStep) : Int :=
  g.foldl (fun a y => match y.step with | Step.Move b => a + b | _ => a) acc

/-- Merge class of a step: coalesceStep merges two tokens exactly when they
are both Add (class 0) or both Move (class 1); class 2 never merges. -/
def classOf : Step → Nat
  | Step.Add _ => 0
  | Step.Move _ => 1
  | _ => 2

/-- Spec-side description of which tokens start a maximal like-kind run: a
token is a run head when it is the first token of the stream or does not
merge with its predecessor.  runHeads lists the first token of each maximal
run, in order; the theorem coalesce_heads compares it with the
source-derived coalesce. -/
def runHeadsAux (prev : IndexedStep) : List IndexedStep → List IndexedStep
  | [] => []
  | y :: ys =>
    match coalesceStep prev y with
    | some _ => runHeadsAux y ys
    | none => y :: runHeadsAux y ys

/-- The first token of each maximal like-kind run of the token stream. -/
def runHeads : List IndexedStep → List IndexedStep
  | [] => []
  | x :: xs => x :: runHeadsAux x xs

/-- Spec-side description of the bracket scan (finalization rule of the
spec): walk the step list keeping the stack of currently-unmatched opening
bracket positions; the result is some stack when no unmatched closing
bracket is hit, none otherwise.  Only bracket kinds are inspected, never
jump payloads. -/
def unmatchedOpens : List Step → List Nat → Nat → Option (List Nat)
  | [], stack, _ => some stack
  | Step.Loop LoopKind.Begin _ :: rest, stack, i => unmatchedOpens rest (i :: stack) (i + 1)
  | Step.Loop LoopKind.End _ :: rest, stack, i =>
    match stack with
    | [] => none
    | _ :: st => unmatchedOpens rest st (i + 1)
  | _ :: rest, stack, i => unmatchedOpens rest stack (i + 1)

/-! Helper lemmas about Memory. -/

theorem move_pointer_nonneg (m : Memory) (d : Int) (h : 0 ≤ d) :
    m.move_pointer d =
      { m with
        pointer := m.pointer + d.toNat
        cells := if m.cells.length ≤ m.pointer + d.toNat then
                   m.cells ++ List.replicate (m.pointer + d.toNat + 1 - m.cells.length) 0
                 else m.cells } := by
  unfold Memory.move_pointer
  rw [if_pos h]

theorem move_pointer_neg_small (m : Memory) (d : Int) (h : d < 0)
    (h2 : (-d).toNat ≤ m.pointer) :
    m.move_pointer d = { m with pointer := m.pointer - (-d).toNat } := by
  unfold Memory.move_pointer
  rw [if_neg (by omega), if_pos h2]

theorem move_pointer_neg_grow (m : Memory) (d : Int) (h : d < 0)
    (h2 : m.pointer < (-d).toNat) :
    m.move_pointer d =
      { cells := List.replicate ((-d).toNat - m.pointer) 0 ++ m.cells,
        pointer := 0,
        offset := m.offset + ((-d).toNat - m.pointer) } := by
  unfold Memory.move_pointer
  rw [if_neg (by omega), if_neg (by omega)]

theorem move_pointer_offset_mono (m : Memory) (d : Int) :
    m.offset ≤ (m.move_pointer d).offset := by
  rcases le_or_lt 0 d with hd | hd
  · rw [move_pointer_nonneg m d hd]
  · rcases le_or_lt (-d).toNat m.pointer with h2 | h2
    · rw [move_pointer_neg_small m d hd h2]
    · rw [move_pointer_neg_grow m d hd h2]; simp

theorem move_pointer_step (m : Memory) (d : Int) (h : m.pointer < m.cells.length) :
    ((m.move_pointer d).pointer : Int) - ((m.move_pointer d).offset : Int)
      = ((m.pointer : Int) - (m.offset : Int)) + d
    ∧ (m.move_pointer d).pointer < (m.move_pointer d).cells.length := by
  rcases le_or_lt 0 d with hd | hd
  · rw [move_pointer_nonneg m d hd]
    have htn : (d.toNat : Int) = d := Int.toNat_of_nonneg hd
    constructor
    · push_cast [htn]; ring
    · dsimp only
      split
      case isTrue hlen => simp only [List.length_append, List.length_replicate]; omega
      case isFalse hlen => omega
  · have htn : ((-d).toNat : Int) = -d := Int.toNat_of_nonneg (by omega)
    rcases le_or_lt (-d).toNat m.pointer with h2 | h2
    · rw [move_pointer_neg_small m d hd h2]
      constructor
      · dsimp only; omega
      · dsimp only; omega
    · rw [move_pointer_neg_grow m d hd h2]
      constructor
      · dsimp only; omega
      · simp only [List.length_append, List.length_replicate]; omega

theorem foldl_move_pointer (deltas : List Int) :
    ∀ (m : Memory), m.pointer < m.cells.length →
      ((deltas.foldl Memory.move_pointer m).pointer : Int)
          - ((deltas.foldl Memory.move_pointer m).offset : Int)
        = ((m.pointer : Int) - (m.offset : Int)) + deltas.sum
      ∧ (deltas.foldl Memory.move_pointer m).pointer
          < (deltas.foldl Memory.move_pointer m).cells.length := by
  induction deltas with
  | nil => intro m h; simpa using h
  | cons d ds ih =>
    intro m h
    have hstep := move_pointer_step m d h
    have hrec := ih (m.move_pointer d) hstep.2
    refine ⟨?_, by simpa using hrec.2⟩
    simp only [List.foldl_cons, List.sum_cons]
    rw [hrec.1, hstep.1]
    ring

/-- Claim C2: starting from a fresh tape, after any sequence of pointer
moves the logical address pointer - offset equals the exact signed sum of
all move deltas applied so far, the internal pointer stays within
[0, cells.length), and the offset never decreases across any single
move. -/
theorem moves_preserve_tape_invariant (deltas : List Int) :
    (((deltas.foldl Memory.move_pointer Memory.new).pointer : Int)
        - ((deltas.foldl Memory.move_pointer Memory.new).offset : Int) = deltas.sum)
    ∧ (deltas.foldl Memory.move_pointer Memory.new).pointer
        < (deltas.foldl Memory.move_pointer Memory.new).cells.length
    ∧ ∀ (m : Memory) (d : Int), m.offset ≤ (m.move_pointer d).offset := by
  have h := foldl_move_pointer deltas Memory.new (by simp [Memory.new])
  refine ⟨?_, h.2, move_pointer_offset_mono⟩
  have := h.1
  simpa [Memory.new] using this

/-- Claim C5: a leftward move that would step left of the tape's current
left edge grows the tape leftward with exactly the shortfall in zero cells,
adds the shortfall to the (monotone) offset, sets the pointer to 0, and
always succeeds: Memory.move_pointer is total and this case is fully
described by the equation below. -/
theorem leftward_growth_never_fails (m : Memory) (amount : Int)
    (hneg : amount < 0) (hedge : m.pointer < (-amount).toNat) :
    m.move_pointer amount =
      { cells := List.replicate ((-amount).toNat - m.pointer) 0 ++ m.cells,
        pointer := 0,
        offset := m.offset + ((-amount).toNat - m.pointer) }
    ∧ m.offset ≤ (m.move_pointer amount).offset
    ∧ (m.move_pointer amount).cells.length
        = ((-amount).toNat - m.pointer) + m.cells.length := by
  have heq := move_pointer_neg_grow m amount hneg hedge
  refine ⟨heq, ?_, ?_⟩
  · rw [heq]; simp
  · rw [heq]; simp

/-- Witness for C5 at a concrete input: moving 2 left from the fresh tape. -/
theorem leftward_growth_never_fails_witness :
    ((-2 : Int) < 0 ∧ Memory.new.pointer < (-(-2 : Int)).toNat)
    ∧ Memory.new.move_pointer (-2) =
        { cells := List.replicate ((-(-2 : Int)).toNat - Memory.new.pointer) 0 ++ Memory.new.cells,
          pointer := 0,
          offset := Memory.new.offset + ((-(-2 : Int)).toNat - Memory.new.pointer) } :=
  ⟨⟨by decide, by decide⟩, (leftward_growth_never_fails Memory.new (-2) (by decide) (by decide)).1⟩

/-! Helper lemmas about Memory.add. -/

theorem add_pointer_length (m : Memory) (a : Int) :
    (m.add a).pointer = m.pointer ∧ (m.add a).cells.length = m.cells.length := by
  constructor
  · rfl
  · simp [Memory.add]

theorem get_cell_add (m : Memory) (a : Int) (h : m.pointer < m.cells.length) :
    (m.add a).get_cell = (m.get_cell + (a % 256).toNat) % 256 := by
  simp only [Memory.add, Memory.get_cell]
  rw [List.getD, List.getD, List.get?_eq_getElem?, List.get?_eq_getElem?,
    List.getElem?_set_eq_of_lt _ h]
  rfl

theorem iterate_add_one (k : Nat) (m : Memory) (hp : m.pointer < m.cells.length)
    (hc : m.get_cell < 256) :
    ((fun mm => Memory.add mm 1)^[k] m).get_cell = (m.get_cell + k) % 256
    ∧ ((fun mm => Memory.add mm 1)^[k] m).pointer
        < ((fun mm => Memory.add mm 1)^[k] m).cells.length := by
  induction k generalizing m with
  | zero => simpa using by omega
  | succ n ih =>
    rw [Function.iterate_succ_apply]
    have h1 : (m.add 1).pointer < (m.add 1).cells.length := by
      have := add_pointer_length m 1; omega
    have hcell : (m.add 1).get_cell = (m.get_cell + 1) % 256 := by
      simpa using get_cell_add m 1 hp
    have hrec := ih (m.add 1) h1 (by rw [hcell]; omega)
    refine ⟨?_, hrec.2⟩
    rw [hrec.1, hcell]
    omega

/-- Claim C8: cell arithmetic is modular.  For any memory whose pointer is
in bounds and whose current cell is a byte: 256 consecutive increments
return the cell to its original value, one decrement of a zero cell yields
255, and Memory.add always yields a byte (it is total, with no overflow
failure condition). -/
theorem cell_arithmetic_is_modular (m : Memory) (hp : m.pointer < m.cells.length)
    (hc : m.get_cell < 256) :
    ((fun mm => Memory.add mm 1)^[256] m).get_cell = m.get_cell
    ∧ (m.get_cell = 0 → (m.add (-1)).get_cell = 255)
    ∧ ∀ amount : Int, (m.add amount).get_cell < 256 := by
  refine ⟨?_, ?_, ?_⟩
  · rw [(iterate_add_one 256 m hp hc).1]; omega
  · intro h0
    rw [get_cell_add m (-1) hp, h0]
    decide
  · intro amount
    rw [get_cell_add m amount hp]
    omega

/-- Witness for C8 at the fresh memory (pointer 0, single zero cell). -/
theorem cell_arithmetic_is_modular_witness :
    (Memory.new.pointer < Memory.new.cells.length ∧ Memory.new.get_cell < 256)
    ∧ ((fun mm => Memory.add mm 1)^[256] Memory.new).get_cell = Memory.new.get_cell
    ∧ (Memory.new.get_cell = 0 → (Memory.new.add (-1)).get_cell = 255) :=
  ⟨⟨by decide, by decide⟩,
    (cell_arithmetic_is_modular Memory.new (by decide) (by decide)).1,
    (cell_arithmetic_is_modular Memory.new (by decide) (by decide)).2.1⟩

/-! Helper lemmas about execLoop. -/

theorem execLoop_zero (bf : Brainfuck) (s : ExecState) : execLoop bf 0 s = none := rfl

theorem execLoop_succ (bf : Brainfuck) (fuel : Nat) (s : ExecState) :
    execLoop bf (fuel + 1) s =
      if s.index < bf.steps.length then
        if bf.max_steps ≤ (execBody bf s).stepCount then
          some (match bf.indexes[(execBody bf s).index]? with
                | some idx =>
                  RunResult.error { kind := ErrorKind.MaxSteps, index := idx,
                                    brainfuck := bf.code,
                                    output := parse_bytes (execBody bf s).output }
                | none => RunResult.panicked)
        else execLoop bf fuel (execBody bf s)
      else some (RunResult.ok ((parse_bytes s.output).getD [])) := rfl

theorem execLoop_mono (bf : Brainfuck) :
    ∀ (fuel fuel' : Nat) (s : ExecState) (r : RunResult),
      execLoop bf fuel s = some r → fuel ≤ fuel' → execLoop bf fuel' s = some r := by
  intro fuel
  induction fuel with
  | zero => intro f' s r h; rw [execLoop_zero] at h; exact absurd h (by simp)
  | succ n ih =>
    intro f' s r h hle
    obtain ⟨m, rfl⟩ : ∃ m, f' = m + 1 := ⟨f' - 1, by omega⟩
    rw [execLoop_succ] at h ⊢
    by_cases hidx : s.index < bf.steps.length
    · rw [if_pos hidx] at h ⊢
      by_cases hlim : bf.max_steps ≤ (execBody bf s).stepCount
      · rw [if_pos hlim] at h ⊢; exact h
      · rw [if_neg hlim] at h ⊢; exact ih m _ _ h (by omega)
    · rw [if_neg hidx] at h ⊢; exact h

theorem execBody_stepCount (bf : Brainfuck) (s : ExecState) :
    (execBody bf s).stepCount = s.stepCount + 1 := rfl

theorem iterate_execBody_stepCount (bf : Brainfuck) (s : ExecState) :
    ∀ k, ((execBody bf)^[k] s).stepCount = s.stepCount + k := by
  intro k
  induction k with
  | zero => simp
  | succ n ih =>
    rw [Function.iterate_succ_apply', execBody_stepCount]
    omega

theorem execBody_output_unchanged (bf : Brainfuck) (s : ExecState)
    (hidx : s.index < bf.steps.length)
    (hnoio : ∀ st ∈ bf.steps, st ≠ Step.Output ∧ st ≠ Step.Input ∧ st ≠ Step.Debug) :
    (execBody bf s).output = s.output := by
  have hget : bf.steps.getD s.index (Step.Add 0) = bf.steps[s.index] := by
    rw [List.getD, List.get?_eq_getElem?, List.getElem?_eq_getElem hidx]
    rfl
  have hmem : bf.steps.getD s.index (Step.Add 0) ∈ bf.steps := by
    rw [hget]
    exact List.getElem_mem hidx
  obtain ⟨h1, h2, h3⟩ := hnoio _ hmem
  unfold execBody
  cases hst : bf.steps.getD s.index (Step.Add 0) with
  | Add n => rfl
  | Move n => rfl
  | Loop kind jump =>
    dsimp only
    split <;> rfl
  | Output => exact absurd hst h1
  | Input => exact absurd hst h2
  | Debug => exact absurd hst h3

theorem iterate_execBody_output (bf : Brainfuck) (input : List Nat) (N : Nat)
    (hrun : ∀ k, k ≤ N → ((execBody bf)^[k] (initState input)).index < bf.steps.length)
    (hnoio : ∀ st ∈ bf.steps, st ≠ Step.Output ∧ st ≠ Step.Input ∧ st ≠ Step.Debug) :
    ∀ k, k ≤ N → ((execBody bf)^[k] (initState input)).output = [] := by
  intro k
  induction k with
  | zero => intro _; rfl
  | succ n ih =>
    intro hle
    rw [Function.iterate_succ_apply',
      execBody_output_unchanged bf _ (hrun n (by omega)) hnoio, ih (by omega)]

theorem execLoop_hits_limit (bf : Brainfuck) :
    ∀ (fuel : Nat) (s : ExecState), 1 ≤ fuel →
      s.stepCount + fuel = bf.max_steps →
      (∀ k, k < fuel → ((execBody bf)^[k] s).index < bf.steps.length) →
      execLoop bf fuel s
          = some (match bf.indexes[((execBody bf)^[fuel] s).index]? with
                  | some idx =>
                    RunResult.error
                      { kind := ErrorKind.MaxSteps, index := idx, brainfuck := bf.code,
                        output := parse_bytes ((execBody bf)^[fuel] s).output }
                  | none => RunResult.panicked)
        ∧ ∀ f, f < fuel → execLoop bf f s = none := by
  intro fuel
  induction fuel with
  | zero => intro s h1; omega
  | succ n ih =>
    intro s hfe hcount htrj
    have hidx0 : s.index < bf.steps.length := by simpa using htrj 0 (by omega)
    have hsc : (execBody bf s).stepCount = s.stepCount + 1 := rfl
    constructor
    · rw [execLoop_succ, if_pos hidx0]
      rcases Nat.eq_zero_or_pos n with h0 | h0
      · subst h0
        rw [if_pos (by omega), Function.iterate_one]
      · rw [if_neg (by omega)]
        have hrec := ih (execBody bf s) (by omega) (by omega)
          (fun k hk => by
            rw [← Function.iterate_succ_apply]
            exact htrj (k + 1) (by omega))
        rw [hrec.1, ← Function.iterate_succ_apply]
    · intro f hf
      cases f with
      | zero => rfl
      | succ m =>
        have hn1 : 1 ≤ n := by omega
        rw [execLoop_succ, if_pos hidx0, if_neg (by omega)]
        exact (ih (execBody bf s) hn1 (by omega)
          (fun k hk => by
            rw [← Function.iterate_succ_apply]
            exact htrj (k + 1) (by omega))).2 m (by omega)

/-- Claim C3 (amended to positive limits): for every compiled program with
no I/O instructions, every input, and every step limit N ≥ 1 such that the
run has not terminated within its first N states (in particular for every
infinite loop), execution fails with the MaxSteps error after exactly N
executed steps — one fuel unit of execLoop is one loop iteration, the step
counter of the k-th state is exactly k, the error is produced with fuel N
and with no smaller fuel — and the error captures the output produced so
far (none, as nothing was output) and the in-bounds source location of the
instruction that would have executed next.  With limit 0 the claim fails:
the limit check runs only after a step executes (see the
counterexample). -/
theorem step_limit_fails_after_exactly_n_steps (bf : Brainfuck) (input : List Nat) (N : Nat)
    (hmax : bf.max_steps = N) (hN : 1 ≤ N)
    (hrun : ∀ k, k ≤ N → ((execBody bf)^[k] (initState input)).index < bf.steps.length)
    (hlen : bf.indexes.length = bf.steps.length)
    (hnoio : ∀ st ∈ bf.steps, st ≠ Step.Output ∧ st ≠ Step.Input ∧ st ≠ Step.Debug) :
    (∀ k, ((execBody bf)^[k] (initState input)).stepCount = k)
    ∧ execLoop bf N (initState input)
        = some (RunResult.error
            { kind := ErrorKind.MaxSteps,
              index := bf.indexes.getD ((execBody bf)^[N] (initState input)).index ⟨0, 0⟩,
              brainfuck := bf.code, output := none })
    ∧ (∀ fuel, fuel < N → execLoop bf fuel (initState input) = none)
    ∧ bf.indexes[((execBody bf)^[N] (initState input)).index]?
        = some (bf.indexes.getD ((execBody bf)^[N] (initState input)).index ⟨0, 0⟩)
    ∧ real_execute bf (some input)
        = some (RunResult.error
            { kind := ErrorKind.MaxSteps,
              index := bf.indexes.getD ((execBody bf)^[N] (initState input)).index ⟨0, 0⟩,
              brainfuck := bf.code, output := none }) := by
  have hlim := execLoop_hits_limit bf N (initState input) hN
    (by rw [hmax]; simp [initState]) (fun k hk => hrun k (by omega))
  have hidxlt : ((execBody bf)^[N] (initState input)).index < bf.indexes.length := by
    rw [hlen]
    exact hrun N le_rfl
  have hgetD : bf.indexes.getD ((execBody bf)^[N] (initState input)).index ⟨0, 0⟩
      = bf.indexes[((execBody bf)^[N] (initState input)).index] := by
    rw [List.getD, List.get?_eq_getElem?, List.getElem?_eq_getElem hidxlt]
    rfl
  have hlook : bf.indexes[((execBody bf)^[N] (initState input)).index]?
      = some (bf.indexes.getD ((execBody bf)^[N] (initState input)).index ⟨0, 0⟩) := by
    rw [hgetD]
    exact List.getElem?_eq_getElem hidxlt
  have hout : ((execBody bf)^[N] (initState input)).output = [] :=
    iterate_execBody_output bf input N hrun hnoio N le_rfl
  have hmain1 := hlim.1
  rw [hlook, hout] at hmain1
  have hmain : execLoop bf N (initState input)
      = some (RunResult.error
          { kind := ErrorKind.MaxSteps,
            index := bf.indexes.getD ((execBody bf)^[N] (initState input)).index ⟨0, 0⟩,
            brainfuck := bf.code, output := none }) := hmain1
  refine ⟨?_, hmain, hlim.2, hlook, ?_⟩
  · intro k
    rw [iterate_execBody_stepCount]
    simp [initState]
  · show execLoop bf (bf.max_steps + 1) (initState input) = _
    rw [hmax]
    exact execLoop_mono bf N (N + 1) _ _ hmain (by omega)

/-- Witness for C3 at the compiled "+[]" with step limit 2. -/
theorem step_limit_fails_after_exactly_n_steps_witness :
    ((bf3 2).max_steps = 2 ∧ 1 ≤ 2
      ∧ (∀ k, k ≤ 2 → ((execBody (bf3 2))^[k] (initState [])).index < (bf3 2).steps.length)
      ∧ (bf3 2).indexes.length = (bf3 2).steps.length
      ∧ (∀ st ∈ (bf3 2).steps, st ≠ Step.Output ∧ st ≠ Step.Input ∧ st ≠ Step.Debug))
    ∧ execLoop (bf3 2) 2 (initState [])
        = some (RunResult.error
            { kind := ErrorKind.MaxSteps,
              index := (bf3 2).indexes.getD ((execBody (bf3 2))^[2] (initState [])).index ⟨0, 0⟩,
              brainfuck := (bf3 2).code, output := none })
    ∧ execLoop (bf3 2) 1 (initState []) = none
    ∧ real_execute (bf3 2) (some [])
        = some (RunResult.error
            { kind := ErrorKind.MaxSteps,
              index := (bf3 2).indexes.getD ((execBody (bf3 2))^[2] (initState [])).index ⟨0, 0⟩,
              brainfuck := (bf3 2).code, output := none }) := by
  have h := step_limit_fails_after_exactly_n_steps (bf3 2) [] 2 rfl (by norm_num)
    (by decide) rfl (by decide)
  exact ⟨⟨rfl, by norm_num, by decide, rfl, by decide⟩,
    h.2.1, h.2.2.1 1 (by norm_num), h.2.2.2.2⟩

/-- Counterexample to C3 as stated, at step limit N = 0: the claim demands
failure after exactly 0 executed steps, but the limit check runs only after
a step has executed, so the run of "+[]" with limit 0 executes one step
(fuel 0 yields no result, fuel 1 already yields the error, and the executed
state's step counter is 1) before failing. -/
theorem step_limit_zero_executes_one_step :
    real_parse code3 0 = Except.ok (bf3 0)
    ∧ execLoop (bf3 0) 0 (initState []) = none
    ∧ execLoop (bf3 0) 1 (initState []) = some (errAt3 ⟨0, 1⟩)
    ∧ (execBody (bf3 0) (initState [])).stepCount = 1
    ∧ real_execute (bf3 0) none = some (errAt3 ⟨0, 1⟩) :=
  ⟨rfl, rfl, rfl, rfl, rfl⟩

/-- Claim C6 (amended): running past the end of the instruction sequence is
success with the accumulated output whenever the loop condition is tested
there — which happens only when the final executed step left the step
counter below the limit.  The concrete conjuncts run the compiled "+." to
normal completion with output [1]. -/
theorem normal_termination_is_success :
    (∀ (bf : Brainfuck) (s : ExecState) (fuel : Nat),
      bf.steps.length ≤ s.index →
        execLoop bf (fuel + 1) s = some (RunResult.ok ((parse_bytes s.output).getD [])))
    ∧ real_parse [[43, 46]] 100000 = Except.ok (bfDot 100000)
    ∧ real_execute (bfDot 100000) none = some (RunResult.ok [1]) := by
  refine ⟨?_, rfl, ?_⟩
  · intro bf s fuel h
    rw [execLoop_succ, if_neg (by omega)]
  · have h3 : execLoop (bfDot 100000) 3 (initState []) = some (RunResult.ok [1]) := rfl
    exact execLoop_mono (bfDot 100000) 3 (100000 + 1) _ _ h3 (by norm_num)

/-- Witness for C6's general conjunct: the pointer already past the end of
the compiled "+." yields immediate success. -/
theorem normal_termination_is_success_witness :
    ((bfDot 100000).steps.length ≤ 5)
    ∧ execLoop (bfDot 100000) 1
        { input := [], output := [], mem := Memory.new, index := 5, stepCount := 0 }
      = some (RunResult.ok []) :=
  ⟨by decide,
    normal_termination_is_success.1 (bfDot 100000)
      { input := [], output := [], mem := Memory.new, index := 5, stepCount := 0 } 0 (by decide)⟩

/-- Counterexample to C6 as stated: "+." has two instructions; run with
max_steps = 2 the pointer runs past the end on exactly the last permitted
step, yet the result is the step-limit branch — which panics on the
out-of-bounds location lookup — not success with the accumulated output
[1]. -/
theorem termination_on_last_permitted_step_is_not_success :
    real_parse [[43, 46]] 2 = Except.ok (bfDot 2)
    ∧ real_execute (bfDot 2) none = some RunResult.panicked
    ∧ some RunResult.panicked ≠ some (RunResult.ok [1]) :=
  ⟨rfl, rfl, by decide⟩

/-- Claim C10: the claim that execution is total and the step-limit
branch's indexes[index] lookup is always in bounds is right as intent but
wrong of the code: compiling "+" and running it with max_steps = 1 reaches
the step-limit branch with index = 1 while the location table has length 1,
so the Rust lookup brainfuck.indexes[index] panics (modelled here by
RunResult.panicked). -/
theorem step_limit_location_lookup_panics :
    real_parse [[43]] 1 = Except.ok (bfPlus 1)
    ∧ real_execute (bfPlus 1) none = some RunResult.panicked
    ∧ (bfPlus 1).indexes.length = 1
    ∧ (execBody (bfPlus 1) (initState [])).index = 1
    ∧ (bfPlus 1).indexes[(execBody (bfPlus 1) (initState [])).index]? = none :=
  ⟨rfl, rfl, rfl, rfl, rfl⟩

/-! Helper lemmas about matchLoopsAux: one-step unfoldings and the scan
invariant that yields the bracket-pairing theorem. -/

theorem matchLoopsAux_zero (steps : List Step) (stack : List Nat) (i : Nat) :
    matchLoopsAux 0 steps stack i =
      match stack with
      | [] => Except.ok steps
      | top :: _ => Except.error top := rfl

theorem matchLoopsAux_succ (fuel : Nat) (steps : List Step) (stack : List Nat) (i : Nat) :
    matchLoopsAux (fuel + 1) steps stack i =
      match steps[i]? with
      | some (Step.Loop LoopKind.Begin _) => matchLoopsAux fuel steps (i :: stack) (i + 1)
      | some (Step.Loop LoopKind.End _) =>
        match stack with
        | [] => Except.error i
        | openIdx :: rest =>
          matchLoopsAux fuel
            ((steps.set openIdx (Step.Loop LoopKind.Begin i)).set i
              (Step.Loop LoopKind.End openIdx))
            rest (i + 1)
      | some _ => matchLoopsAux fuel steps stack (i + 1)
      | none =>
        match stack with
        | [] => Except.ok steps
        | top :: _ => Except.error top := rfl

theorem inv_extend_nonloop {steps : List Step} {stack : List Nat} {i : Nat} {s : Step}
    (hs : steps[i]? = some s) (hnl : ∀ kd j, s ≠ Step.Loop kd j)
    (h1 : ∀ k ∈ stack, k < i ∧ ∃ d, steps[k]? = some (Step.Loop LoopKind.Begin d))
    (h2 : ∀ a j, a < i → a ∉ stack → steps[a]? = some (Step.Loop LoopKind.Begin j) →
        a < j ∧ j < i ∧ j ∉ stack ∧ steps[j]? = some (Step.Loop LoopKind.End a))
    (h3 : ∀ b a, b < i → steps[b]? = some (Step.Loop LoopKind.End a) →
        a < b ∧ a ∉ stack ∧ b ∉ stack ∧ steps[a]? = some (Step.Loop LoopKind.Begin b)) :
    (∀ k ∈ stack, k < i + 1 ∧ ∃ d, steps[k]? = some (Step.Loop LoopKind.Begin d))
    ∧ (∀ a j, a < i + 1 → a ∉ stack → steps[a]? = some (Step.Loop LoopKind.Begin j) →
        a < j ∧ j < i + 1 ∧ j ∉ stack ∧ steps[j]? = some (Step.Loop LoopKind.End a))
    ∧ (∀ b a, b < i + 1 → steps[b]? = some (Step.Loop LoopKind.End a) →
        a < b ∧ a ∉ stack ∧ b ∉ stack ∧ steps[a]? = some (Step.Loop LoopKind.Begin b)) := by
  refine ⟨fun k hk => ⟨by have := (h1 k hk).1; omega, (h1 k hk).2⟩, ?_, ?_⟩
  · intro a j ha hmem hget
    by_cases hai : a = i
    · subst hai
      rw [hs] at hget
      exact absurd (Option.some.inj hget) (hnl LoopKind.Begin j)
    · have := h2 a j (by omega) hmem hget
      exact ⟨this.1, by omega, this.2.2.1, this.2.2.2⟩
  · intro b a hb hget
    by_cases hbi : b = i
    · subst hbi
      rw [hs] at hget
      exact absurd (Option.some.inj hget) (hnl LoopKind.End a)
    · exact h3 b a (by omega) hget

theorem inv_extend_begin {steps : List Step} {stack : List Nat} {i : Nat} {d : Nat}
    (hs : steps[i]? = some (Step.Loop LoopKind.Begin d))
    (hpw : List.Pairwise (fun a b => b < a) stack)
    (h1 : ∀ k ∈ stack, k < i ∧ ∃ d, steps[k]? = some (Step.Loop LoopKind.Begin d))
    (h2 : ∀ a j, a < i → a ∉ stack → steps[a]? = some (Step.Loop LoopKind.Begin j) →
        a < j ∧ j < i ∧ j ∉ stack ∧ steps[j]? = some (Step.Loop LoopKind.End a))
    (h3 : ∀ b a, b < i → steps[b]? = some (Step.Loop LoopKind.End a) →
        a < b ∧ a ∉ stack ∧ b ∉ stack ∧ steps[a]? = some (Step.Loop LoopKind.Begin b)) :
    List.Pairwise (fun a b => b < a) (i :: stack)
    ∧ (∀ k ∈ i :: stack, k < i + 1 ∧ ∃ d, steps[k]? = some (Step.Loop LoopKind.Begin d))
    ∧ (∀ a j, a < i + 1 → a ∉ i :: stack → steps[a]? = some (Step.Loop LoopKind.Begin j) →
        a < j ∧ j < i + 1 ∧ j ∉ i :: stack ∧ steps[j]? = some (Step.Loop LoopKind.End a))
    ∧ (∀ b a, b < i + 1 → steps[b]? = some (Step.Loop LoopKind.End a) →
        a < b ∧ a ∉ i :: stack ∧ b ∉ i :: stack
        ∧ steps[a]? = some (Step.Loop LoopKind.Begin b)) := by
  refine ⟨List.pairwise_cons.mpr ⟨fun b hb => (h1 b hb).1, hpw⟩, ?_, ?_, ?_⟩
  · intro k hk
    rcases List.mem_cons.mp hk with hk | hk
    · subst hk; exact ⟨by omega, d, hs⟩
    · exact ⟨by have := (h1 k hk).1; omega, (h1 k hk).2⟩
  · intro a j ha hmem hget
    have hane : a ≠ i := fun h => hmem (h ▸ List.mem_cons_self i stack)
    have hanotin : a ∉ stack := fun h => hmem (List.mem_cons_of_mem i h)
    have := h2 a j (by omega) hanotin hget
    refine ⟨this.1, by omega, ?_, this.2.2.2⟩
    intro hj
    rcases List.mem_cons.mp hj with hj | hj
    · omega
    · exact this.2.2.1 hj
  · intro b a hb hget
    by_cases hbi : b = i
    · subst hbi
      rw [hs] at hget
      cases Option.some.inj hget
    · have := h3 b a (by omega) hget
      have hai : a ≠ i := by have := this.1; omega
      refine ⟨this.1, ?_, ?_, this.2.2.2⟩
      · intro hmem
        rcases List.mem_cons.mp hmem with h | h
        · exact hai h
        · exact this.2.1 h
      · intro hmem
        rcases List.mem_cons.mp hmem with h | h
        · exact hbi h
        · exact this.2.2.1 h

theorem inv_extend_end {steps : List Step} {openIdx : Nat} {rest : List Nat} {i : Nat} {d : Nat}
    (hs : steps[i]? = some (Step.Loop LoopKind.End d))
    (hpw : List.Pairwise (fun a b => b < a) (openIdx :: rest))
    (h1 : ∀ k ∈ openIdx :: rest, k < i ∧ ∃ d, steps[k]? = some (Step.Loop LoopKind.Begin d))
    (h2 : ∀ a j, a < i → a ∉ openIdx :: rest → steps[a]? = some (Step.Loop LoopKind.Begin j) →
        a < j ∧ j < i ∧ j ∉ openIdx :: rest ∧ steps[j]? = some (Step.Loop LoopKind.End a))
    (h3 : ∀ b a, b < i → steps[b]? = some (Step.Loop LoopKind.End a) →
        a < b ∧ a ∉ openIdx :: rest ∧ b ∉ openIdx :: rest
        ∧ steps[a]? = some (Step.Loop LoopKind.Begin b)) :
    List.Pairwise (fun a b => b < a) rest
    ∧ (∀ k ∈ rest, k < i + 1 ∧
        ∃ d, ((steps.set openIdx (Step.Loop LoopKind.Begin i)).set i
            (Step.Loop LoopKind.End openIdx))[k]? = some (Step.Loop LoopKind.Begin d))
    ∧ (∀ a j, a < i + 1 → a ∉ rest →
        ((steps.set openIdx (Step.Loop LoopKind.Begin i)).set i
            (Step.Loop LoopKind.End openIdx))[a]? = some (Step.Loop LoopKind.Begin j) →
        a < j ∧ j < i + 1 ∧ j ∉ rest ∧
        ((steps.set openIdx (Step.Loop LoopKind.Begin i)).set i
            (Step.Loop LoopKind.End openIdx))[j]? = some (Step.Loop LoopKind.End a))
    ∧ (∀ b a, b < i + 1 →
        ((steps.set openIdx (Step.Loop LoopKind.Begin i)).set i
            (Step.Loop LoopKind.End openIdx))[b]? = some (Step.Loop LoopKind.End a) →
        a < b ∧ a ∉ rest ∧ b ∉ rest ∧
        ((steps.set openIdx (Step.Loop LoopKind.Begin i)).set i
            (Step.Loop LoopKind.End openIdx))[a]? = some (Step.Loop LoopKind.Begin b)) := by
  have hrest_lt : ∀ k ∈ rest, k < openIdx := fun k hk =>
    (List.pairwise_cons.mp hpw).1 k hk
  have hoi : openIdx < i := (h1 openIdx (List.mem_cons_self _ _)).1
  have hi_len : i < steps.length := by
    by_contra hcon
    rw [List.getElem?_eq_none (by omega)] at hs
    cases hs
  have ho_len : openIdx < steps.length := by omega
  have hlen1 : (steps.set openIdx (Step.Loop LoopKind.Begin i)).length = steps.length := by
    simp
  have hget_i : ((steps.set openIdx (Step.Loop LoopKind.Begin i)).set i
      (Step.Loop LoopKind.End openIdx))[i]? = some (Step.Loop LoopKind.End openIdx) :=
    List.getElem?_set_eq_of_lt _ (by omega)
  have hget_o : ((steps.set openIdx (Step.Loop LoopKind.Begin i)).set i
      (Step.Loop LoopKind.End openIdx))[openIdx]? = some (Step.Loop LoopKind.Begin i) := by
    rw [List.getElem?_set_ne (by omega), List.getElem?_set_eq_of_lt _ ho_len]
  have hget_e : ∀ x, x ≠ i → x ≠ openIdx →
      ((steps.set openIdx (Step.Loop LoopKind.Begin i)).set i
        (Step.Loop LoopKind.End openIdx))[x]? = steps[x]? := by
    intro x hxi hxo
    rw [List.getElem?_set_ne (by omega), List.getElem?_set_ne (by omega)]
  refine ⟨(List.pairwise_cons.mp hpw).2, ?_, ?_, ?_⟩
  · intro k hk
    have hklt : k < openIdx := hrest_lt k hk
    obtain ⟨d0, hd0⟩ := (h1 k (List.mem_cons_of_mem _ hk)).2
    exact ⟨by omega, d0, by rw [hget_e k (by omega) (by omega)]; exact hd0⟩
  · intro a j ha hmem hget
    by_cases hai : a = i
    · subst hai
      rw [hget_i] at hget
      cases Option.some.inj hget
    · by_cases hao : a = openIdx
      · subst hao
        rw [hget_o] at hget
        have hj : j = i := (Step.Loop.inj (Option.some.inj hget)).2.symm
        subst hj
        refine ⟨hoi, by omega, fun hc => by have := hrest_lt _ hc; omega, hget_i⟩
      · rw [hget_e a hai hao] at hget
        have hnotin : a ∉ openIdx :: rest := by
          intro hmem2
          rcases List.mem_cons.mp hmem2 with h | h
          · exact hao h
          · exact hmem h
        have := h2 a j (by omega) hnotin hget
        have hji : j ≠ i := by have := this.2.1; omega
        have hjo : j ≠ openIdx := fun h =>
          this.2.2.1 (h ▸ List.mem_cons_self openIdx rest)
        refine ⟨this.1, by omega, fun hc => this.2.2.1 (List.mem_cons_of_mem _ hc), ?_⟩
        rw [hget_e j hji hjo]
        exact this.2.2.2
  · intro b a hb hget
    by_cases hbi : b = i
    · subst hbi
      rw [hget_i] at hget
      have ha : a = openIdx := (Step.Loop.inj (Option.some.inj hget)).2.symm
      subst ha
      refine ⟨hoi, fun hc => by have := hrest_lt _ hc; omega,
        fun hc => by have := hrest_lt _ hc; omega, hget_o⟩
    · by_cases hbo : b = openIdx
      · subst hbo
        rw [hget_o] at hget
        cases Option.some.inj hget
      · rw [hget_e b hbi hbo] at hget
        have := h3 b a (by omega) hget
        have hao : a ≠ openIdx := fun h =>
          this.2.1 (h ▸ List.mem_cons_self openIdx rest)
        have hai : a ≠ i := by have h1' := this.1; omega
        refine ⟨this.1, fun hc => this.2.1 (List.mem_cons_of_mem _ hc),
          fun hc => this.2.2.1 (List.mem_cons_of_mem _ hc), ?_⟩
        rw [hget_e a hai hao]
        exact this.2.2.2

theorem matchLoops_invariant :
    ∀ (fuel : Nat) (steps : List Step) (stack : List Nat) (i : Nat),
      fuel + i = steps.length →
      List.Pairwise (fun a b => b < a) stack →
      (∀ k ∈ stack, k < i ∧ ∃ d, steps[k]? = some (Step.Loop LoopKind.Begin d)) →
      (∀ a j, a < i → a ∉ stack → steps[a]? = some (Step.Loop LoopKind.Begin j) →
        a < j ∧ j < i ∧ j ∉ stack ∧ steps[j]? = some (Step.Loop LoopKind.End a)) →
      (∀ b a, b < i → steps[b]? = some (Step.Loop LoopKind.End a) →
        a < b ∧ a ∉ stack ∧ b ∉ stack ∧ steps[a]? = some (Step.Loop LoopKind.Begin b)) →
      ∀ res, matchLoopsAux fuel steps stack i = Except.ok res →
        (∀ p q, res[p]? = some (Step.Loop LoopKind.Begin q) →
            p < q ∧ res[q]? = some (Step.Loop LoopKind.End p))
        ∧ (∀ q p, res[q]? = some (Step.Loop LoopKind.End p) →
            p < q ∧ res[p]? = some (Step.Loop LoopKind.Begin q)) := by
  intro fuel
  induction fuel with
  | zero =>
    intro steps stack i hlen hpw h1 h2 h3 res hok
    rw [matchLoopsAux_zero] at hok
    cases stack with
    | cons t ts => cases hok
    | nil =>
      have hres : steps = res := Except.ok.inj hok
      subst hres
      constructor
      · intro p q hget
        have hp : p < steps.length := by
          by_contra hcon
          rw [List.getElem?_eq_none (by omega)] at hget
          cases hget
        have := h2 p q (by omega) (by simp) hget
        exact ⟨this.1, this.2.2.2⟩
      · intro q p hget
        have hq : q < steps.length := by
          by_contra hcon
          rw [List.getElem?_eq_none (by omega)] at hget
          cases hget
        have := h3 q p (by omega) hget
        exact ⟨this.1, this.2.2.2⟩
  | succ n ih =>
    intro steps stack i hlen hpw h1 h2 h3 res hok
    have hi : i < steps.length := by omega
    have hs : steps[i]? = some steps[i] := List.getElem?_eq_getElem hi
    rw [matchLoopsAux_succ, hs] at hok
    cases hsv : steps[i] with
    | Loop kind jump =>
      rw [hsv] at hs
      cases kind with
      | Begin =>
        rw [hsv] at hok
        have hinv := inv_extend_begin hs hpw h1 h2 h3
        exact ih steps (i :: stack) (i + 1) (by omega) hinv.1 hinv.2.1 hinv.2.2.1
          hinv.2.2.2 res hok
      | End =>
        rw [hsv] at hok
        cases stack with
        | nil => cases hok
        | cons openIdx rest =>
          have hinv := inv_extend_end hs hpw h1 h2 h3
          exact ih _ rest (i + 1) (by simp; omega) hinv.1 hinv.2.1 hinv.2.2.1
            hinv.2.2.2 res hok
    | Add n' =>
      rw [hsv] at hs hok
      have hinv := inv_extend_nonloop hs (fun kd j h => by cases h) h1 h2 h3
      exact ih steps stack (i + 1) (by omega) hpw hinv.1 hinv.2.1 hinv.2.2 res hok
    | Move n' =>
      rw [hsv] at hs hok
      have hinv := inv_extend_nonloop hs (fun kd j h => by cases h) h1 h2 h3
      exact ih steps stack (i + 1) (by omega) hpw hinv.1 hinv.2.1 hinv.2.2 res hok
    | Output =>
      rw [hsv] at hs hok
      have hinv := inv_extend_nonloop hs (fun kd j h => by cases h) h1 h2 h3
      exact ih steps stack (i + 1) (by omega) hpw hinv.1 hinv.2.1 hinv.2.2 res hok
    | Input =>
      rw [hsv] at hs hok
      have hinv := inv_extend_nonloop hs (fun kd j h => by cases h) h1 h2 h3
      exact ih steps stack (i + 1) (by omega) hpw hinv.1 hinv.2.1 hinv.2.2 res hok
    | Debug =>
      rw [hsv] at hs hok
      have hinv := inv_extend_nonloop hs (fun kd j h => by cases h) h1 h2 h3
      exact ih steps stack (i + 1) (by omega) hpw hinv.1 hinv.2.1 hinv.2.2 res hok

/-- Claim C1: for every successfully compiled program the loop pairing is
symmetric and total: every LoopBegin at index p carries a target q > p whose
instruction is a LoopEnd with target p, and every LoopEnd at index q carries
a target p < q whose instruction is a LoopBegin with target q; no unmatched
bracket survives compilation (an unmatched bracket makes real_parse return
an error, not an ok). -/
theorem compiled_loop_pairing_symmetric (code : List (List Nat)) (ms : Nat) (bf : Brainfuck)
    (h : real_parse code ms = Except.ok bf) :
    (∀ p q, bf.steps[p]? = some (Step.Loop LoopKind.Begin q) →
        p < q ∧ bf.steps[q]? = some (Step.Loop LoopKind.End p))
    ∧ (∀ q p, bf.steps[q]? = some (Step.Loop LoopKind.End p) →
        p < q ∧ bf.steps[p]? = some (Step.Loop LoopKind.Begin q)) := by
  unfold real_parse at h
  dsimp only at h
  split at h
  case h_1 finalSteps hm =>
    have hbf : bf.steps = finalSteps := by
      cases Except.ok.inj h
      rfl
    rw [hbf]
    exact matchLoops_invariant _ _ [] 0 (by omega) (by simp) (by simp) (by omega)
      (by omega) finalSteps hm
  case h_2 i hm => cases h

/-- Witness for C1: the compiled "[]" and its bracket pair. -/
theorem compiled_loop_pairing_symmetric_witness :
    real_parse [[91, 93]] 100000 = Except.ok bfPair
    ∧ (∀ p q, bfPair.steps[p]? = some (Step.Loop LoopKind.Begin q) →
        p < q ∧ bfPair.steps[q]? = some (Step.Loop LoopKind.End p)) :=
  ⟨rfl, (compiled_loop_pairing_symmetric [[91, 93]] 100000 bfPair rfl).1⟩

/-! Helper lemmas about coalesce and tokenize. -/

theorem real_parse_def (code : List (List Nat)) (ms : Nat) :
    real_parse code ms =
      match matchLoopsAux ((coalesce coalesceStep (tokenize code)).map fun x => x.step).length
          ((coalesce coalesceStep (tokenize code)).map fun x => x.step) [] 0 with
      | Except.ok finalSteps =>
        Except.ok { steps := finalSteps,
                    indexes := (coalesce coalesceStep (tokenize code)).map fun x => x.index,
                    code := code, max_steps := ms }
      | Except.error i =>
        Except.error { kind := ErrorKind.UnmatchedBracket,
                       index := ((coalesce coalesceStep (tokenize code)).map
                                   fun x => x.index).getD i ⟨0, 0⟩,
                       brainfuck := code, output := none } := rfl

theorem coalesceAux_nil (f : IndexedStep → IndexedStep → Option IndexedStep)
    (last : IndexedStep) : coalesceAux f last [] = [last] := rfl

theorem coalesceAux_cons (f : IndexedStep → IndexedStep → Option IndexedStep)
    (last x : IndexedStep) (xs : List IndexedStep) :
    coalesceAux f last (x :: xs) =
      match f last x with
      | some merged => coalesceAux f merged xs
      | none => last :: coalesceAux f x xs := rfl

theorem drop_set_of_lt {A : Type} (l : List A) (j m : Nat) (a : A) (h : j < m) :
    (l.set j a).drop m = l.drop m := by
  apply List.ext_getElem?
  intro n
  rw [List.getElem?_drop, List.getElem?_drop, List.getElem?_set_ne (by omega)]

theorem matchLoopsAux_unmatched_opens :
    ∀ (fuel : Nat) (steps : List Step) (stack : List Nat) (i : Nat),
      fuel + i = steps.length →
      (∀ k ∈ stack, k < i ∧ ∃ d, steps[k]? = some (Step.Loop LoopKind.Begin d)) →
      ∀ top rest, unmatchedOpens (steps.drop i) stack i = some (top :: rest) →
        matchLoopsAux fuel steps stack i = Except.error top := by
  intro fuel
  induction fuel with
  | zero =>
    intro steps stack i hlen hstack top rest h
    rw [List.drop_eq_nil_of_le (by omega)] at h
    have h' : some stack = some (top :: rest) := h
    cases Option.some.inj h'
    rfl
  | succ n ih =>
    intro steps stack i hlen hstack top rest h
    have hi : i < steps.length := by omega
    rw [List.drop_eq_getElem_cons hi] at h
    have hs : steps[i]? = some steps[i] := List.getElem?_eq_getElem hi
    rw [matchLoopsAux_succ, hs]
    cases hsv : steps[i] with
    | Loop kind jump =>
      rw [hsv] at h hs
      cases kind with
      | Begin =>
        exact ih steps (i :: stack) (i + 1) (by omega)
          (fun k hk => by
            rcases List.mem_cons.mp hk with hk | hk
            · subst hk
              exact ⟨by omega, jump, hs⟩
            · have := hstack k hk
              exact ⟨by omega, this.2⟩)
          top rest h
      | End =>
        cases stack with
        | nil =>
          have h' : (none : Option (List Nat)) = some (top :: rest) := h
          cases h'
        | cons openIdx st =>
          obtain ⟨hoi, d0, hd0⟩ := hstack openIdx (List.mem_cons_self _ _)
          have ho_len : openIdx < steps.length := by omega
          refine ih ((steps.set openIdx (Step.Loop LoopKind.Begin i)).set i
              (Step.Loop LoopKind.End openIdx)) st (i + 1) (by simp; omega)
            ?_ top rest ?_
          · intro k hk
            obtain ⟨hki, dk, hdk⟩ := hstack k (List.mem_cons_of_mem _ hk)
            by_cases hko : k = openIdx
            · subst hko
              exact ⟨by omega, i, by
                rw [List.getElem?_set_ne (by omega), List.getElem?_set_eq_of_lt _ ho_len]⟩
            · exact ⟨by omega, dk, by
                rw [List.getElem?_set_ne (by omega), List.getElem?_set_ne (by omega)]
                exact hdk⟩
          · rw [drop_set_of_lt _ _ _ _ (by omega), drop_set_of_lt _ _ _ _ (by omega)]
            exact h
    | Add n' =>
      rw [hsv] at h
      exact ih steps stack (i + 1) (by omega)
        (fun k hk => ⟨by have := (hstack k hk).1; omega, (hstack k hk).2⟩) top rest h
    | Move n' =>
      rw [hsv] at h
      exact ih steps stack (i + 1) (by omega)
        (fun k hk => ⟨by have := (hstack k hk).1; omega, (hstack k hk).2⟩) top rest h
    | Output =>
      rw [hsv] at h
      exact ih steps stack (i + 1) (by omega)
        (fun k hk => ⟨by have := (hstack k hk).1; omega, (hstack k hk).2⟩) top rest h
    | Input =>
      rw [hsv] at h
      exact ih steps stack (i + 1) (by omega)
        (fun k hk => ⟨by have := (hstack k hk).1; omega, (hstack k hk).2⟩) top rest h
    | Debug =>
      rw [hsv] at h
      exact ih steps stack (i + 1) (by omega)
        (fun k hk => ⟨by have := (hstack k hk).1; omega, (hstack k hk).2⟩) top rest h

theorem unmatchedOpens_pairwise :
    ∀ (l : List Step) (stack : List Nat) (i : Nat),
      (∀ k ∈ stack, k < i) →
      List.Pairwise (fun a b => b < a) stack →
      ∀ res, unmatchedOpens l stack i = some res →
        List.Pairwise (fun a b => b < a) res := by
  intro l
  induction l with
  | nil =>
    intro stack i hbound hpw res h
    have h' : some stack = some res := h
    cases Option.some.inj h'
    exact hpw
  | cons s rest ih =>
    intro stack i hbound hpw res h
    cases s with
    | Loop kind jump =>
      cases kind with
      | Begin =>
        exact ih (i :: stack) (i + 1)
          (fun k hk => by
            rcases List.mem_cons.mp hk with hk | hk
            · omega
            · have := hbound k hk; omega)
          (List.pairwise_cons.mpr ⟨hbound, hpw⟩) res h
      | End =>
        cases stack with
        | nil =>
          have h' : (none : Option (List Nat)) = some res := h
          cases h'
        | cons t st =>
          exact ih st (i + 1)
            (fun k hk => by have := hbound k (List.mem_cons_of_mem _ hk); omega)
            (List.pairwise_cons.mp hpw).2 res h
    | Add n =>
      exact ih stack (i + 1) (fun k hk => by have := hbound k hk; omega) hpw res h
    | Move n =>
      exact ih stack (i + 1) (fun k hk => by have := hbound k hk; omega) hpw res h
    | Output =>
      exact ih stack (i + 1) (fun k hk => by have := hbound k hk; omega) hpw res h
    | Input =>
      exact ih stack (i + 1) (fun k hk => by have := hbound k hk; omega) hpw res h
    | Debug =>
      exact ih stack (i + 1) (fun k hk => by have := hbound k hk; omega) hpw res h

/-- Claim C4 (amended): for every source whose bracket scan ends with
unmatched opening brackets (the stack of open positions, recomputed by the
spec-side unmatchedOpens, is non-empty), compilation fails with an
unmatched-bracket error located at the most recently opened remaining
bracket - the stack top, which is the largest step index among the
remaining opens - and not at the earliest one; when exactly one open
bracket remains the two coincide, which is the spec's concrete scenario
(error at line 0 column 25), proved as the last conjunct. -/
theorem unmatched_open_reported_at_latest (code : List (List Nat)) (ms : Nat)
    (top : Nat) (rest : List Nat)
    (h : unmatchedOpens ((coalesce coalesceStep (tokenize code)).map fun x => x.step) [] 0
        = some (top :: rest)) :
    real_parse code ms = Except.error
      { kind := ErrorKind.UnmatchedBracket,
        index := ((coalesce coalesceStep (tokenize code)).map fun x => x.index).getD top ⟨0, 0⟩,
        brainfuck := code, output := none }
    ∧ (∀ k ∈ top :: rest, k ≤ top)
    ∧ real_parse [[43, 43, 43, 43, 43, 91, 62, 43, 43, 43, 43, 43, 43, 43, 62, 43, 43,
                   60, 60, 45, 93, 62, 46, 62, 46, 91]] 100000 =
      Except.error { kind := ErrorKind.UnmatchedBracket, index := ⟨0, 25⟩,
                     brainfuck := [[43, 43, 43, 43, 43, 91, 62, 43, 43, 43, 43, 43, 43,
                                    43, 62, 43, 43, 60, 60, 45, 93, 62, 46, 62, 46, 91]],
                     output := none } := by
  have hM := matchLoopsAux_unmatched_opens
    ((coalesce coalesceStep (tokenize code)).map fun x => x.step).length
    ((coalesce coalesceStep (tokenize code)).map fun x => x.step) [] 0
    (by omega) (by simp) top rest (by rw [List.drop_zero]; exact h)
  refine ⟨?_, ?_, rfl⟩
  · rw [real_parse_def, hM]
  · have hpw := unmatchedOpens_pairwise
      ((coalesce coalesceStep (tokenize code)).map fun x => x.step) [] 0
      (by simp) (by simp) (top :: rest) h
    intro k hk
    rcases List.mem_cons.mp hk with hk | hk
    · omega
    · have := (List.pairwise_cons.mp hpw).1 k hk
      omega

/-- Witness for C4 at the source of two opening brackets: the scan leaves
opens at positions 0 and 1 and the error is reported at the later one. -/
theorem unmatched_open_reported_at_latest_witness :
    (unmatchedOpens ((coalesce coalesceStep (tokenize [[91, 91]])).map fun x => x.step) [] 0
        = some (1 :: [0]))
    ∧ real_parse [[91, 91]] 100000 = Except.error
        { kind := ErrorKind.UnmatchedBracket,
          index := ((coalesce coalesceStep (tokenize [[91, 91]])).map
                      fun x => x.index).getD 1 ⟨0, 0⟩,
          brainfuck := [[91, 91]], output := none }
    ∧ (∀ k ∈ (1 : Nat) :: [0], k ≤ 1) :=
  ⟨rfl, (unmatched_open_reported_at_latest [[91, 91]] 100000 1 [0] rfl).1,
    (unmatched_open_reported_at_latest [[91, 91]] 100000 1 [0] rfl).2.1⟩

/-- Counterexample to C4 as stated: the source of two opening brackets
fails at the most recently pushed bracket (line 0, column 1), not at the
earliest remaining (stack-bottom) one at column 0 as the claim demands. -/
theorem unmatched_open_not_reported_at_earliest :
    real_parse [[91, 91]] 100000 =
      Except.error { kind := ErrorKind.UnmatchedBracket, index := ⟨0, 1⟩,
                     brainfuck := [[91, 91]], output := none }
    ∧ (⟨0, 1⟩ : Index) ≠ ⟨0, 0⟩ :=
  ⟨rfl, by decide⟩

/-! Helper lemmas about run coalescing. -/

theorem addSum_cons_add (a : Int) (i : Index) (g : List IndexedStep) :
    addSum (⟨Step.Add a, i⟩ :: g) = a + addSum g := by
  simp [addSum]

theorem moveSum_cons_move (a : Int) (i : Index) (g : List IndexedStep) :
    moveSum (⟨Step.Move a, i⟩ :: g) = a + moveSum g := by
  simp [moveSum]

theorem addRunDelta_mod (g : List IndexedStep) :
    ∀ acc : Int, addRunDelta acc g % 256 = (acc + addSum g) % 256 := by
  induction g with
  | nil => intro acc; simp [addRunDelta, addSum]
  | cons y g' ih =>
    intro acc
    obtain ⟨ys, yi⟩ := y
    cases ys with
    | Add b =>
      rw [show addRunDelta acc (⟨Step.Add b, yi⟩ :: g') = addRunDelta (i8wrap (acc + b)) g'
          from rfl,
        ih, addSum_cons_add]
      unfold i8wrap
      omega
    | Move b =>
      rw [show addRunDelta acc (⟨Step.Move b, yi⟩ :: g') = addRunDelta acc g' from rfl, ih]
      have : addSum (⟨Step.Move b, yi⟩ :: g') = addSum g' := by simp [addSum]
      rw [this]
    | Loop kd j =>
      rw [show addRunDelta acc (⟨Step.Loop kd j, yi⟩ :: g') = addRunDelta acc g' from rfl, ih]
      have : addSum (⟨Step.Loop kd j, yi⟩ :: g') = addSum g' := by simp [addSum]
      rw [this]
    | Output =>
      rw [show addRunDelta acc (⟨Step.Output, yi⟩ :: g') = addRunDelta acc g' from rfl, ih]
      have : addSum (⟨Step.Output, yi⟩ :: g') = addSum g' := by simp [addSum]
      rw [this]
    | Input =>
      rw [show addRunDelta acc (⟨Step.Input, yi⟩ :: g') = addRunDelta acc g' from rfl, ih]
      have : addSum (⟨Step.Input, yi⟩ :: g') = addSum g' := by simp [addSum]
      rw [this]
    | Debug =>
      rw [show addRunDelta acc (⟨Step.Debug, yi⟩ :: g') = addRunDelta acc g' from rfl, ih]
      have : addSum (⟨Step.Debug, yi⟩ :: g') = addSum g' := by simp [addSum]
      rw [this]

theorem moveRunDelta_sum (g : List IndexedStep) :
    ∀ acc : Int, moveRunDelta acc g = acc + moveSum g := by
  induction g with
  | nil => intro acc; simp [moveRunDelta, moveSum]
  | cons y g' ih =>
    intro acc
    obtain ⟨ys, yi⟩ := y
    cases ys with
    | Move b =>
      rw [show moveRunDelta acc (⟨Step.Move b, yi⟩ :: g') = moveRunDelta (acc + b) g'
          from rfl,
        ih, moveSum_cons_move]
      ring
    | Add b =>
      rw [show moveRunDelta acc (⟨Step.Add b, yi⟩ :: g') = moveRunDelta acc g' from rfl, ih]
      have : moveSum (⟨Step.Add b, yi⟩ :: g') = moveSum g' := by simp [moveSum]
      rw [this]
    | Loop kd j =>
      rw [show moveRunDelta acc (⟨Step.Loop kd j, yi⟩ :: g') = moveRunDelta acc g' from rfl, ih]
      have : moveSum (⟨Step.Loop kd j, yi⟩ :: g') = moveSum g' := by simp [moveSum]
      rw [this]
    | Output =>
      rw [show moveRunDelta acc (⟨Step.Output, yi⟩ :: g') = moveRunDelta acc g' from rfl, ih]
      have : moveSum (⟨Step.Output, yi⟩ :: g') = moveSum g' := by simp [moveSum]
      rw [this]
    | Input =>
      rw [show moveRunDelta acc (⟨Step.Input, yi⟩ :: g') = moveRunDelta acc g' from rfl, ih]
      have : moveSum (⟨Step.Input, yi⟩ :: g') = moveSum g' := by simp [moveSum]
      rw [this]
    | Debug =>
      rw [show moveRunDelta acc (⟨Step.Debug, yi⟩ :: g') = moveRunDelta acc g' from rfl, ih]
      have : moveSum (⟨Step.Debug, yi⟩ :: g') = moveSum g' := by simp [moveSum]
      rw [this]

theorem coalesceAux_add_run (g : List IndexedStep) :
    ∀ (acc : Int) (idx : Index) (rest : List IndexedStep),
      (∀ y ∈ g, ∃ b, y.step = Step.Add b) →
      (∀ y, rest.head? = some y → ∀ b, y.step ≠ Step.Add b) →
      coalesceAux coalesceStep ⟨Step.Add acc, idx⟩ (g ++ rest)
        = ⟨Step.Add (addRunDelta acc g), idx⟩ :: coalesce coalesceStep rest := by
  induction g with
  | nil =>
    intro acc idx rest hg hrest
    rw [show addRunDelta acc [] = acc from rfl, List.nil_append]
    cases rest with
    | nil => rfl
    | cons r rs =>
      rw [coalesceAux_cons]
      have hnone : coalesceStep ⟨Step.Add acc, idx⟩ r = none := by
        obtain ⟨rs', ri⟩ := r
        have hr := hrest ⟨rs', ri⟩ rfl
        cases rs' with
        | Add b => exact absurd rfl (hr b)
        | Move b => rfl
        | Loop kd j => rfl
        | Output => rfl
        | Input => rfl
        | Debug => rfl
      rw [hnone]
      rfl
  | cons y g' ih =>
    intro acc idx rest hg hrest
    obtain ⟨b, hb⟩ := hg y (List.mem_cons_self _ _)
    obtain ⟨ys, yi⟩ := y
    have hb' : ys = Step.Add b := hb
    subst hb'
    calc coalesceAux coalesceStep ⟨Step.Add acc, idx⟩
          (((⟨Step.Add b, yi⟩ : IndexedStep) :: g') ++ rest)
        = coalesceAux coalesceStep ⟨Step.Add (i8wrap (acc + b)), idx⟩ (g' ++ rest) := rfl
      _ = ⟨Step.Add (addRunDelta (i8wrap (acc + b)) g'), idx⟩ :: coalesce coalesceStep rest :=
          ih (i8wrap (acc + b)) idx rest (fun z hz => hg z (List.mem_cons_of_mem _ hz)) hrest
      _ = ⟨Step.Add (addRunDelta acc ((⟨Step.Add b, yi⟩ : IndexedStep) :: g')), idx⟩
            :: coalesce coalesceStep rest := rfl

theorem coalesceAux_move_run (g : List IndexedStep) :
    ∀ (acc : Int) (idx : Index) (rest : List IndexedStep),
      (∀ y ∈ g, ∃ b, y.step = Step.Move b) →
      (∀ y, rest.head? = some y → ∀ b, y.step ≠ Step.Move b) →
      coalesceAux coalesceStep ⟨Step.Move acc, idx⟩ (g ++ rest)
        = ⟨Step.Move (moveRunDelta acc g), idx⟩ :: coalesce coalesceStep rest := by
  induction g with
  | nil =>
    intro acc idx rest hg hrest
    rw [show moveRunDelta acc [] = acc from rfl, List.nil_append]
    cases rest with
    | nil => rfl
    | cons r rs =>
      rw [coalesceAux_cons]
      have hnone : coalesceStep ⟨Step.Move acc, idx⟩ r = none := by
        obtain ⟨rs', ri⟩ := r
        have hr := hrest ⟨rs', ri⟩ rfl
        cases rs' with
        | Move b => exact absurd rfl (hr b)
        | Add b => rfl
        | Loop kd j => rfl
        | Output => rfl
        | Input => rfl
        | Debug => rfl
      rw [hnone]
      rfl
  | cons y g' ih =>
    intro acc idx rest hg hrest
    obtain ⟨b, hb⟩ := hg y (List.mem_cons_self _ _)
    obtain ⟨ys, yi⟩ := y
    have hb' : ys = Step.Move b := hb
    subst hb'
    calc coalesceAux coalesceStep ⟨Step.Move acc, idx⟩
          (((⟨Step.Move b, yi⟩ : IndexedStep) :: g') ++ rest)
        = coalesceAux coalesceStep ⟨Step.Move (acc + b), idx⟩ (g' ++ rest) := rfl
      _ = ⟨Step.Move (moveRunDelta (acc + b) g'), idx⟩ :: coalesce coalesceStep rest :=
          ih (acc + b) idx rest (fun z hz => hg z (List.mem_cons_of_mem _ hz)) hrest
      _ = ⟨Step.Move (moveRunDelta acc ((⟨Step.Move b, yi⟩ : IndexedStep) :: g')), idx⟩
            :: coalesce coalesceStep rest := rfl

theorem matchLoopsAux_preserves :
    ∀ (fuel : Nat) (steps : List Step) (stack : List Nat) (i : Nat),
      (∀ k ∈ stack, ∃ d, steps[k]? = some (Step.Loop LoopKind.Begin d)) →
      ∀ res : List Step, matchLoopsAux fuel steps stack i = Except.ok res →
        res.length = steps.length
        ∧ ∀ (p : Nat) (s : Step), steps[p]? = some s → (∀ kd j, s ≠ Step.Loop kd j) →
            res[p]? = some s := by
  intro fuel
  induction fuel with
  | zero =>
    intro steps stack i hstack res hok
    rw [matchLoopsAux_zero] at hok
    cases stack with
    | cons t ts => cases hok
    | nil =>
      cases Except.ok.inj hok
      exact ⟨rfl, fun p s hp _ => hp⟩
  | succ n ih =>
    intro steps stack i hstack res hok
    rw [matchLoopsAux_succ] at hok
    cases hs : steps[i]? with
    | none =>
      rw [hs] at hok
      cases stack with
      | cons t ts => cases hok
      | nil =>
        cases Except.ok.inj hok
        exact ⟨rfl, fun p s hp _ => hp⟩
    | some s =>
      rw [hs] at hok
      cases s with
      | Loop kind jump =>
        cases kind with
        | Begin =>
          exact ih steps (i :: stack) (i + 1)
            (fun k hk => by
              rcases List.mem_cons.mp hk with hk | hk
              · exact ⟨jump, hk ▸ hs⟩
              · exact hstack k hk)
            res hok
        | End =>
          cases stack with
          | nil => cases hok
          | cons openIdx rest =>
            obtain ⟨d0, hd0⟩ := hstack openIdx (List.mem_cons_self _ _)
            have hi_len : i < steps.length := by
              by_contra hcon
              rw [List.getElem?_eq_none (by omega)] at hs
              cases hs
            have ho_len : openIdx < steps.length := by
              by_contra hcon
              rw [List.getElem?_eq_none (by omega)] at hd0
              cases hd0
            have hoi : openIdx ≠ i := fun h => by
              rw [h, hs] at hd0
              cases Option.some.inj hd0
            have hrec := ih
              ((steps.set openIdx (Step.Loop LoopKind.Begin i)).set i
                (Step.Loop LoopKind.End openIdx))
              rest (i + 1)
              (fun k hk => by
                obtain ⟨dk, hdk⟩ := hstack k (List.mem_cons_of_mem _ hk)
                by_cases hko : k = openIdx
                · subst hko
                  exact ⟨i, by
                    rw [List.getElem?_set_ne (by omega), List.getElem?_set_eq_of_lt _ ho_len]⟩
                · have hki : k ≠ i := fun h => by
                    rw [h, hs] at hdk
                    cases Option.some.inj hdk
                  exact ⟨dk, by rw [List.getElem?_set_ne (by omega),
                    List.getElem?_set_ne (by omega)]; exact hdk⟩)
              res hok
            refine ⟨by rw [hrec.1]; simp, ?_⟩
            intro p s hp hnl
            have hpi : p ≠ i := fun h => by
              rw [h, hs] at hp
              exact hnl LoopKind.End jump (Option.some.inj hp).symm
            have hpo : p ≠ openIdx := fun h => by
              rw [h, hd0] at hp
              exact hnl LoopKind.Begin d0 (Option.some.inj hp).symm
            refine hrec.2 p s ?_ hnl
            rw [List.getElem?_set_ne (by omega), List.getElem?_set_ne (by omega)]
            exact hp
      | Add n' => exact ih steps stack (i + 1) hstack res hok
      | Move n' => exact ih steps stack (i + 1) hstack res hok
      | Output => exact ih steps stack (i + 1) hstack res hok
      | Input => exact ih steps stack (i + 1) hstack res hok
      | Debug => exact ih steps stack (i + 1) hstack res hok

/-- Claim C7 (amended to runs of consecutive significant tokens): a maximal
run of consecutive Add-primitives in the token stream — inert bytes,
including line breaks, do not break a run — coalesces to exactly one Add
whose payload folds the run with wrapping i8 addition and therefore equals
the run's signed sum mod 256; a maximal run of Move-primitives coalesces to
exactly one Move carrying the exact signed sum; a token that is neither Add
nor Move (in particular a loop bracket) is emitted unmerged, so coalescing
never merges different kinds and never crosses a loop bracket; every merge
keeps the left (earliest) token's location, so the emitted instruction's
location is the run's first token; and in the compiled program the
non-loop instructions and all locations are exactly the coalesced stream's
(loop matching only rewrites jump targets). -/
theorem coalescing_folds_runs :
    (∀ (x : IndexedStep) (g rest : List IndexedStep) (a : Int), x.step = Step.Add a →
      (∀ y ∈ g, ∃ b, y.step = Step.Add b) →
      (∀ y, rest.head? = some y → ∀ b, y.step ≠ Step.Add b) →
      coalesce coalesceStep ((x :: g) ++ rest)
          = ⟨Step.Add (addRunDelta a g), x.index⟩ :: coalesce coalesceStep rest
        ∧ addRunDelta a g % 256 = addSum (x :: g) % 256)
    ∧ (∀ (x : IndexedStep) (g rest : List IndexedStep) (a : Int), x.step = Step.Move a →
      (∀ y ∈ g, ∃ b, y.step = Step.Move b) →
      (∀ y, rest.head? = some y → ∀ b, y.step ≠ Step.Move b) →
      coalesce coalesceStep ((x :: g) ++ rest)
          = ⟨Step.Move (moveRunDelta a g), x.index⟩ :: coalesce coalesceStep rest
        ∧ moveRunDelta a g = moveSum (x :: g))
    ∧ (∀ (x : IndexedStep) (rest : List IndexedStep),
      (∀ b, x.step ≠ Step.Add b) → (∀ b, x.step ≠ Step.Move b) →
      coalesce coalesceStep (x :: rest) = x :: coalesce coalesceStep rest)
    ∧ (∀ (l r m : IndexedStep), coalesceStep l r = some m →
      ((∃ a b, l.step = Step.Add a ∧ r.step = Step.Add b
          ∧ m = ⟨Step.Add (i8wrap (a + b)), l.index⟩)
       ∨ (∃ a b, l.step = Step.Move a ∧ r.step = Step.Move b
          ∧ m = ⟨Step.Move (a + b), l.index⟩)))
    ∧ (∀ (code : List (List Nat)) (ms : Nat) (bf : Brainfuck),
      real_parse code ms = Except.ok bf →
        bf.indexes = (coalesce coalesceStep (tokenize code)).map (fun x => x.index)
        ∧ bf.steps.length = (coalesce coalesceStep (tokenize code)).length
        ∧ ∀ (k : Nat) (s : IndexedStep), (coalesce coalesceStep (tokenize code))[k]? = some s →
            (∀ kd j, s.step ≠ Step.Loop kd j) → bf.steps[k]? = some s.step) := by
  refine ⟨?_, ?_, ?_, ?_, ?_⟩
  · intro x g rest a hx hg hrest
    obtain ⟨xs, xi⟩ := x
    have hx' : xs = Step.Add a := hx
    subst hx'
    refine ⟨coalesceAux_add_run g a xi rest hg hrest, ?_⟩
    rw [addRunDelta_mod, addSum_cons_add]
  · intro x g rest a hx hg hrest
    obtain ⟨xs, xi⟩ := x
    have hx' : xs = Step.Move a := hx
    subst hx'
    refine ⟨coalesceAux_move_run g a xi rest hg hrest, ?_⟩
    rw [moveRunDelta_sum, moveSum_cons_move]
  · intro x rest ha hm
    obtain ⟨xs, xi⟩ := x
    cases rest with
    | nil => rfl
    | cons r rs =>
      show coalesceAux coalesceStep ⟨xs, xi⟩ (r :: rs) = ⟨xs, xi⟩ :: coalesceAux coalesceStep r rs
      rw [coalesceAux_cons]
      have hnone : coalesceStep ⟨xs, xi⟩ r = none := by
        cases xs with
        | Add b => exact absurd rfl (ha b)
        | Move b => exact absurd rfl (hm b)
        | Loop kd j => rfl
        | Output => rfl
        | Input => rfl
        | Debug => rfl
      rw [hnone]
  · intro l r m h
    obtain ⟨ls, li⟩ := l
    obtain ⟨rs, ri⟩ := r
    cases ls with
    | Add a =>
      cases rs with
      | Add b =>
        have hm : m = ⟨Step.Add (i8wrap (a + b)), li⟩ := (Option.some.inj h).symm
        exact Or.inl ⟨a, b, rfl, rfl, hm⟩
      | Move b => cases h
      | Loop kd j => cases h
      | Output => cases h
      | Input => cases h
      | Debug => cases h
    | Move a =>
      cases rs with
      | Move b =>
        have hm : m = ⟨Step.Move (a + b), li⟩ := (Option.some.inj h).symm
        exact Or.inr ⟨a, b, rfl, rfl, hm⟩
      | Add b => cases h
      | Loop kd j => cases h
      | Output => cases h
      | Input => cases h
      | Debug => cases h
    | Loop kd j => cases h
    | Output => cases h
    | Input => cases h
    | Debug => cases h
  · intro code ms bf h
    unfold real_parse at h
    dsimp only at h
    split at h
    case h_1 finalSteps hm =>
      cases Except.ok.inj h
      have hpres := matchLoopsAux_preserves _ _ [] 0 (by simp) finalSteps hm
      refine ⟨rfl, by rw [hpres.1]; simp, ?_⟩
      intro k s hk hnl
      exact hpres.2 k s.step (by rw [List.getElem?_map, hk]; rfl) hnl
    case h_2 i hm => cases h

/-- Witness for C7: each conjunct applied at a concrete input — an Add run
of +1 then -1 closed off by an Output token, a Move run of two +1 moves, a
loop bracket emitted unmerged, a concrete Add/Add merge, and the compiled
"+." program. -/
theorem coalescing_folds_runs_witness :
    (coalesce coalesceStep
        ([⟨Step.Add 1, ⟨0, 0⟩⟩, ⟨Step.Add (-1), ⟨0, 1⟩⟩] ++ [⟨Step.Output, ⟨0, 2⟩⟩])
        = ⟨Step.Add (addRunDelta 1 [⟨Step.Add (-1), ⟨0, 1⟩⟩]), ⟨0, 0⟩⟩
            :: coalesce coalesceStep [⟨Step.Output, ⟨0, 2⟩⟩]
      ∧ addRunDelta 1 [⟨Step.Add (-1), ⟨0, 1⟩⟩] % 256
          = addSum [⟨Step.Add 1, ⟨0, 0⟩⟩, ⟨Step.Add (-1), ⟨0, 1⟩⟩] % 256)
    ∧ (coalesce coalesceStep ([⟨Step.Move 1, ⟨0, 0⟩⟩, ⟨Step.Move 1, ⟨0, 1⟩⟩] ++ [])
        = ⟨Step.Move (moveRunDelta 1 [⟨Step.Move 1, ⟨0, 1⟩⟩]), ⟨0, 0⟩⟩
            :: coalesce coalesceStep []
      ∧ moveRunDelta 1 [⟨Step.Move 1, ⟨0, 1⟩⟩]
          = moveSum [⟨Step.Move 1, ⟨0, 0⟩⟩, ⟨Step.Move 1, ⟨0, 1⟩⟩])
    ∧ coalesce coalesceStep [⟨Step.Loop LoopKind.Begin 0, ⟨0, 0⟩⟩, ⟨Step.Add 1, ⟨0, 1⟩⟩]
        = ⟨Step.Loop LoopKind.Begin 0, ⟨0, 0⟩⟩ :: coalesce coalesceStep [⟨Step.Add 1, ⟨0, 1⟩⟩]
    ∧ ((∃ a b, (⟨Step.Add 1, ⟨0, 0⟩⟩ : IndexedStep).step = Step.Add a
          ∧ (⟨Step.Add 2, ⟨0, 1⟩⟩ : IndexedStep).step = Step.Add b
          ∧ (⟨Step.Add (i8wrap (1 + 2)), ⟨0, 0⟩⟩ : IndexedStep)
              = ⟨Step.Add (i8wrap (a + b)), (⟨Step.Add 1, ⟨0, 0⟩⟩ : IndexedStep).index⟩)
       ∨ (∃ a b, (⟨Step.Add 1, ⟨0, 0⟩⟩ : IndexedStep).step = Step.Move a
          ∧ (⟨Step.Add 2, ⟨0, 1⟩⟩ : IndexedStep).step = Step.Move b
          ∧ (⟨Step.Add (i8wrap (1 + 2)), ⟨0, 0⟩⟩ : IndexedStep)
              = ⟨Step.Move (a + b), (⟨Step.Add 1, ⟨0, 0⟩⟩ : IndexedStep).index⟩))
    ∧ ((bfDot 100000).indexes
        = (coalesce coalesceStep (tokenize [[43, 46]])).map (fun x => x.index)
      ∧ (bfDot 100000).steps.length = (coalesce coalesceStep (tokenize [[43, 46]])).length) := by
  have h := coalescing_folds_runs
  refine ⟨h.1 ⟨Step.Add 1, ⟨0, 0⟩⟩ [⟨Step.Add (-1), ⟨0, 1⟩⟩] [⟨Step.Output, ⟨0, 2⟩⟩] 1 rfl
      ?_ ?_,
    h.2.1 ⟨Step.Move 1, ⟨0, 0⟩⟩ [⟨Step.Move 1, ⟨0, 1⟩⟩] [] 1 rfl ?_ ?_,
    h.2.2.1 ⟨Step.Loop LoopKind.Begin 0, ⟨0, 0⟩⟩ [⟨Step.Add 1, ⟨0, 1⟩⟩] ?_ ?_,
    h.2.2.2.1 ⟨Step.Add 1, ⟨0, 0⟩⟩ ⟨Step.Add 2, ⟨0, 1⟩⟩ ⟨Step.Add (i8wrap (1 + 2)), ⟨0, 0⟩⟩ rfl,
    ?_, ?_⟩
  · intro y hy
    rw [List.mem_singleton.mp hy]
    exact ⟨-1, rfl⟩
  · intro y hy b
    rw [← Option.some.inj hy]
    intro hc
    cases hc
  · intro y hy
    rw [List.mem_singleton.mp hy]
    exact ⟨1, rfl⟩
  · intro y hy b
    cases hy
  · intro b hb
    cases hb
  · intro b hb
    cases hb
  · exact (h.2.2.2.2 [[43, 46]] 100000 (bfDot 100000) rfl).1
  · exact (h.2.2.2.2 [[43, 46]] 100000 (bfDot 100000) rfl).2.1

/-- Counterexample to C7 as stated: in the source "+a+" (bytes 43, 97, 43)
the two plus signs are separated by an inert byte, so they form two distinct
maximal runs of consecutive plus/minus characters, each of signed sum 1; the
claim therefore demands two Add instructions of delta 1, but coalescing also
merges across inert bytes and the compiled program is the single instruction
Add 2. -/
theorem coalescing_merges_across_inert_bytes :
    real_parse [[43, 97, 43]] 100000 = Except.ok bfAA
    ∧ bfAA.steps = [Step.Add 2]
    ∧ Step.Add 2 ≠ Step.Add 1 :=
  ⟨rfl, rfl, by decide⟩

/-! Helper lemmas about location provenance for C9. -/

theorem coalesceStep_index (l r m : IndexedStep) (h : coalesceStep l r = some m) :
    m.index = l.index := by
  obtain ⟨ls, li⟩ := l
  obtain ⟨rs, ri⟩ := r
  cases ls with
  | Add a =>
    cases rs with
    | Add b => cases Option.some.inj h; rfl
    | Move b => cases h
    | Loop kd j => cases h
    | Output => cases h
    | Input => cases h
    | Debug => cases h
  | Move a =>
    cases rs with
    | Move b => cases Option.some.inj h; rfl
    | Add b => cases h
    | Loop kd j => cases h
    | Output => cases h
    | Input => cases h
    | Debug => cases h
  | Loop kd j => cases h
  | Output => cases h
  | Input => cases h
  | Debug => cases h

theorem runHeadsAux_cons (prev y : IndexedStep) (ys : List IndexedStep) :
    runHeadsAux prev (y :: ys) =
      match coalesceStep prev y with
      | some _ => runHeadsAux y ys
      | none => y :: runHeadsAux y ys := rfl

theorem coalesceStep_isSome_class (a z : IndexedStep) :
    (coalesceStep a z).isSome
      = decide (classOf a.step = classOf z.step ∧ classOf a.step ≤ 1) := by
  obtain ⟨s1, i1⟩ := a
  obtain ⟨s2, i2⟩ := z
  cases s1 <;> cases s2 <;> rfl

theorem coalesceStep_some_class (a z m : IndexedStep) (h : coalesceStep a z = some m) :
    classOf m.step = classOf a.step ∧ classOf a.step = classOf z.step := by
  obtain ⟨s1, i1⟩ := a
  obtain ⟨s2, i2⟩ := z
  cases s1 with
  | Add a =>
    cases s2 with
    | Add b => cases Option.some.inj h; exact ⟨rfl, rfl⟩
    | Move b => cases h
    | Loop kd j => cases h
    | Output => cases h
    | Input => cases h
    | Debug => cases h
  | Move a =>
    cases s2 with
    | Move b => cases Option.some.inj h; exact ⟨rfl, rfl⟩
    | Add b => cases h
    | Loop kd j => cases h
    | Output => cases h
    | Input => cases h
    | Debug => cases h
  | Loop kd j => cases h
  | Output => cases h
  | Input => cases h
  | Debug => cases h

theorem coalesceAux_heads (xs : List IndexedStep) :
    ∀ (last prev : IndexedStep), classOf last.step = classOf prev.step →
      (coalesceAux coalesceStep last xs).map (fun x => x.index)
        = last.index :: (runHeadsAux prev xs).map (fun x => x.index) := by
  induction xs with
  | nil => intro last prev hcl; rfl
  | cons y ys ih =>
    intro last prev hcl
    have hsome : (coalesceStep last y).isSome = (coalesceStep prev y).isSome := by
      rw [coalesceStep_isSome_class, coalesceStep_isSome_class, hcl]
    cases hm : coalesceStep last y with
    | some m =>
      obtain ⟨m2, hm2⟩ := Option.isSome_iff_exists.mp (by rw [← hsome, hm]; rfl)
      calc (coalesceAux coalesceStep last (y :: ys)).map (fun x => x.index)
          = (coalesceAux coalesceStep m ys).map (fun x => x.index) := by
            rw [coalesceAux_cons, hm]
        _ = m.index :: (runHeadsAux y ys).map (fun x => x.index) :=
            ih m y ((coalesceStep_some_class last y m hm).1.trans
              (coalesceStep_some_class last y m hm).2)
        _ = last.index :: (runHeadsAux y ys).map (fun x => x.index) := by
            rw [coalesceStep_index last y m hm]
        _ = last.index :: (runHeadsAux prev (y :: ys)).map (fun x => x.index) := by
            rw [runHeadsAux_cons, hm2]
    | none =>
      have hm2 : coalesceStep prev y = none := by
        cases hpy : coalesceStep prev y with
        | none => rfl
        | some mm => rw [hm, hpy] at hsome; cases hsome
      calc (coalesceAux coalesceStep last (y :: ys)).map (fun x => x.index)
          = last.index :: (coalesceAux coalesceStep y ys).map (fun x => x.index) := by
            rw [coalesceAux_cons, hm]
            rfl
        _ = last.index :: y.index :: (runHeadsAux y ys).map (fun x => x.index) := by
            rw [ih y y rfl]
        _ = last.index :: (runHeadsAux prev (y :: ys)).map (fun x => x.index) := by
            rw [runHeadsAux_cons, hm2]
            rfl

theorem coalesce_heads (ts : List IndexedStep) :
    (coalesce coalesceStep ts).map (fun x => x.index)
      = (runHeads ts).map (fun x => x.index) := by
  cases ts with
  | nil => rfl
  | cons x xs => exact coalesceAux_heads xs x x rfl

theorem runHeadsAux_subset (xs : List IndexedStep) :
    ∀ (prev y : IndexedStep), y ∈ runHeadsAux prev xs → y ∈ xs := by
  induction xs with
  | nil => intro prev y h; cases h
  | cons z zs ih =>
    intro prev y h
    rw [runHeadsAux_cons] at h
    cases hm : coalesceStep prev z with
    | some m =>
      rw [hm] at h
      have h' : y ∈ runHeadsAux z zs := h
      exact List.mem_cons_of_mem _ (ih z y h')
    | none =>
      rw [hm] at h
      have h' : y ∈ z :: runHeadsAux z zs := h
      rcases List.mem_cons.mp h' with h2 | h2
      · subst h2
        exact List.mem_cons_self _ _
      · exact List.mem_cons_of_mem _ (ih z y h2)

theorem runHeads_subset (ts : List IndexedStep) (y : IndexedStep) (h : y ∈ runHeads ts) :
    y ∈ ts := by
  cases ts with
  | nil => cases h
  | cons x xs =>
    have h' : y ∈ x :: runHeadsAux x xs := h
    rcases List.mem_cons.mp h' with h2 | h2
    · subst h2
      exact List.mem_cons_self _ _
    · exact List.mem_cons_of_mem _ (runHeadsAux_subset xs x y h2)

theorem tokenize_index_valid (code : List (List Nat)) (t : IndexedStep)
    (ht : t ∈ tokenize code) :
    ∃ b, (code[t.index.line]?.bind fun l => l[t.index.col]?) = some b
      ∧ charToStep b = some t.step := by
  unfold tokenize at ht
  obtain ⟨p, hp, htl⟩ := List.mem_flatMap.mp ht
  have hline : code[p.1]? = some p.2 := by
    have := List.mem_enum_iff_getElem?.mp hp
    exact this
  unfold tokenizeLine at htl
  obtain ⟨q, hq, hft⟩ := List.mem_filterMap.mp htl
  obtain ⟨s, hcs, hts⟩ := Option.map_eq_some'.mp hft
  have hbyte : p.2[q.1]? = some q.2 := List.mem_enum_iff_getElem?.mp hq
  refine ⟨q.2, ?_, ?_⟩
  · rw [← hts]
    dsimp only
    rw [hline]
    exact hbyte
  · rw [← hts]
    exact hcs

theorem real_parse_ok_indexes (code : List (List Nat)) (ms : Nat) (bf : Brainfuck)
    (h : real_parse code ms = Except.ok bf) :
    bf.indexes = (coalesce coalesceStep (tokenize code)).map fun x => x.index := by
  unfold real_parse at h
  dsimp only at h
  split at h
  case h_1 finalSteps hm =>
    cases Except.ok.inj h
    rfl
  case h_2 i hm => cases h

/-- Claim C9 (amended to byte columns): every location recorded in a
compiled program is a zero-based (line, column) pair whose column is a byte
offset into the line — counted in UTF-8 code units, not characters — and it
points at the first byte that produced the instruction: the k-th recorded
location is exactly the location of the k-th run head, the first token of
the maximal run coalesced into the k-th instruction, and the source byte at
that (line, byte-column) is the significant byte producing exactly that
token's primitive.  For an all-ASCII line the byte column and the character
column coincide, the only case in which the claim's "counted in source
characters" reading holds. -/
theorem locations_are_byte_columns (code : List (List Nat)) (ms : Nat) (bf : Brainfuck)
    (h : real_parse code ms = Except.ok bf) :
    (∀ (k : Nat) (idx : Index), bf.indexes[k]? = some idx →
      ∃ y : IndexedStep, (runHeads (tokenize code))[k]? = some y ∧ y.index = idx
        ∧ ∃ b, (code[idx.line]?.bind fun l => l[idx.col]?) = some b
            ∧ charToStep b = some y.step)
    ∧ (∀ (lineContent : List Nat) (col : Nat), (∀ b ∈ lineContent, b < 128) →
        col ≤ lineContent.length → charColumnOfByte lineContent col = col) := by
  constructor
  · intro k idx hk
    rw [real_parse_ok_indexes code ms bf h, coalesce_heads, List.getElem?_map] at hk
    obtain ⟨y, hy, hyi⟩ := Option.map_eq_some'.mp hk
    have hymem : y ∈ runHeads (tokenize code) := by
      obtain ⟨hlt, hget⟩ := List.getElem?_eq_some.mp hy
      exact hget ▸ List.getElem_mem hlt
    obtain ⟨b, hb, hbs⟩ := tokenize_index_valid code y (runHeads_subset _ y hymem)
    exact ⟨y, hy, hyi, b, by rw [← hyi]; exact hb, hbs⟩
  · intro lineContent col hascii hcol
    unfold charColumnOfByte
    have hfil : (lineContent.take col).filter (fun b => !isUtf8Continuation b)
        = lineContent.take col := by
      apply List.filter_eq_self.mpr
      intro b hb
      have hlt : b < 128 := hascii b (List.take_subset col lineContent hb)
      simp [isUtf8Continuation]
      omega
    rw [hfil, List.length_take]
    omega

/-- Witness for C9 at the compiled "+." program. -/
theorem locations_are_byte_columns_witness :
    real_parse [[43, 46]] 100000 = Except.ok (bfDot 100000)
    ∧ (∀ (k : Nat) (idx : Index), (bfDot 100000).indexes[k]? = some idx →
      ∃ y : IndexedStep, (runHeads (tokenize [[43, 46]]))[k]? = some y ∧ y.index = idx
        ∧ ∃ b, ([[43, 46]][idx.line]?.bind fun l => l[idx.col]?) = some b
            ∧ charToStep b = some y.step) :=
  ⟨rfl, (locations_are_byte_columns [[43, 46]] 100000 (bfDot 100000) rfl).1⟩

/-- Counterexample to C9 as stated: the source line made of the two-byte
UTF-8 character 0xC3 0xA9 followed by '+' compiles to one Add located at
column 2 — the byte offset of '+' — whereas its character position is 1, so
the column is counted in bytes, not source characters. -/
theorem column_counts_bytes_not_chars :
    real_parse [[195, 169, 43]] 100000 = Except.ok bfWide
    ∧ bfWide.indexes = [⟨0, 2⟩]
    ∧ charColumnOfByte [195, 169, 43] 2 = 1
    ∧ (2 : Nat) ≠ 1 :=
  ⟨rfl, rfl, by decide, by decide⟩

end Brainfrick
